import Mathlib

/-!
# unstopiter: release-reachability check over an SSA control-flow graph

A shallow embedding of `passes/unstopiter/unstopiter.go`.

* SSA values and instructions are identified by an address (a natural number):
  the Go code compares them by pointer equality only.
* Basic blocks of one function are identified by their index in `Function.blocks`;
  `BasicBlock.succs` lists successor indices.  An index outside the block list
  stands for an empty block without successors.
* The visited map `done` of `callStopInSuccs` is threaded explicitly: the walk
  returns its verdict together with the updated map.
* The receiver `*runner` is passed explicitly and returned by `run`.
-/

namespace Unstopiter

/-! ## Types of the analysed program (go/types) -/

/-- Go types, as far as the pass inspects them.  A named type is identified by its
package path and name, which is how `types.Identical` tells package-level named
types apart; pointers are identical when their elements are. -/
inductive Typ where
  | named (pkg : String) (name : String)
  | pointer (elem : Typ)
  | basic (name : String)
  deriving DecidableEq, Repr

/-- A signature as `types.Identical` sees it: parameters, results and variadicity.
The receiver is not part of the comparison. -/
structure Signature where
  params : List Typ
  results : List Typ
  variadic : Bool
  deriving DecidableEq, Repr

/-- A method of a named type: `Id()` and `Type()` of a `*types.Func`. -/
structure Func where
  id : String
  sig : Signature
  deriving DecidableEq, Repr

/-- An object of a package scope (`types.Object`): its name, its type, and the
declared methods of that type when it is a named type (`Named.Method(i)`). -/
structure Object where
  name : String
  typ : Typ
  methods : List Func
  deriving DecidableEq, Repr

/-- An imported package: its path (vendor directory stripped, which is the form
`LookupFromImports` compares) and the objects of its scope. -/
structure Package where
  path : String
  scope : List Object
  deriving DecidableEq, Repr

/-! ## SSA form (golang.org/x/tools/go/ssa) -/

/-- Identity of an SSA value: the address of the instruction or other value. -/
abbrev Value := Nat

/-- Source position (`token.Pos`); `0` is `token.NoPos`. -/
abbrev Pos := Nat

/-- An `*ssa.Function` seen as a callee: its package path (`none` when `Package()`
is nil), its receiver type if it is a method, its name and its signature. -/
structure Callee where
  pkg : Option String
  recv : Option Typ
  name : String
  sig : Signature
  deriving DecidableEq, Repr

/-- The common part of a call instruction: the result of `StaticCallee()`
(`none` for interface and function-value calls) and the argument values. -/
structure CallCommon where
  staticCallee : Option Callee
  args : List Value
  deriving DecidableEq, Repr

/-- Instructions.  `call` is `*ssa.Call` (a value with a type); `go` and `defer`
are the other two implementations of `ssa.CallInstruction`; `ret` is
`*ssa.Return`; `other` is any other instruction (phi, load, jump, if, ...). -/
inductive Instruction where
  | call (id : Value) (typ : Typ) (common : CallCommon) (pos : Pos)
  | go (id : Value) (common : CallCommon) (pos : Pos)
  | defer (id : Value) (common : CallCommon) (pos : Pos)
  | ret (id : Value) (results : List Value) (pos : Pos)
  | other (id : Value) (typ : Option Typ) (pos : Pos)
  deriving DecidableEq, Repr

/-- `instr.Pos()`. -/
def Instruction.pos : Instruction → Pos
  | .call _ _ _ p => p
  | .go _ _ p => p
  | .defer _ _ p => p
  | .ret _ _ p => p
  | .other _ _ p => p

/-- `instr.Common()` for the instructions satisfying `ssa.CallInstruction`. -/
def Instruction.common? : Instruction → Option CallCommon
  | .call _ _ c _ => some c
  | .go _ c _ => some c
  | .defer _ c _ => some c
  | _ => none

/-- A basic block: its instructions and the indices of its successor blocks. -/
structure BasicBlock where
  instrs : List Instruction
  succs : List Nat
  deriving DecidableEq, Repr

/-- A source function: its basic blocks, `Blocks[k]` being block `k`. -/
structure Function where
  blocks : List BasicBlock
  deriving DecidableEq, Repr

/-- The block with index `b`; an index outside the function denotes an empty
block without successors. -/
def Function.block (f : Function) (b : Nat) : BasicBlock :=
  f.blocks.getD b ⟨[], []⟩

/-! ## Library functions used by the pass -/

/-- Qualified name of a type relative to package `from_` (`types.TypeString` with
`types.RelativeTo`): a named type of the package itself is written without
qualifier. -/
def relType (from_ : String) : Typ → String
  | .named pkg name => if pkg = from_ then name else pkg ++ "." ++ name
  | .pointer e => "*" ++ relType from_ e
  | .basic name => name

/-- `fn.RelString(from)` of an `*ssa.Function` that is a declared method or a
package-level function. -/
def Callee.relString (fn : Callee) (from_ : String) : String :=
  match fn.recv with
  | some t => "(" ++ relType from_ t ++ ")." ++ fn.name
  | none =>
    match fn.pkg with
    | some p => if p = from_ then fn.name else p ++ "." ++ fn.name
    | none => fn.name

/-- `analysisutil.LookupFromImports`: the object called `name` in the scope of the
first import whose path is `path`; `none` when there is no such import or the
scope has no such object. -/
def lookupFromImports (imports : List Package) (path name : String) : Option Object :=
  match imports.find? (fun p => p.path == path) with
  | some p => p.scope.find? (fun o => o.name == name)
  | none => none

/-! ## The pass -/

/-- Import path of the client library. -/
def spannerPath : String := "cloud.google.com/go/spanner"

/-- The receiver of the pass. -/
structure runner where
  iterObj : Option Object
  iterNamed : Option Typ
  iterTyp : Option Typ
  stopMthd : Option Func
  deriving DecidableEq, Repr

/-- `new(runner)`: the runner the analyzer is created with. -/
def newRunner : runner := ⟨none, none, none, none⟩

/-- The callee part of the condition in `callStopIn`: there is a static callee, it has
a package, its name relative to that package is `(*RowIterator).Stop` and its signature
is identical to that of the recorded release method. -/
def isStopCallee (r : runner) (callee : Option Callee) : Bool :=
  match callee with
  | none => false
  | some fn =>
    match fn.pkg with
    | none => false
    | some p =>
      fn.relString p == "(*RowIterator).Stop" &&
      (match r.stopMthd with
       | some m => decide (fn.sig = m.sig)
       | none => false)

/-- The condition of the `if` inside `callStopIn`, for one call instruction: the callee
is the release method, there is an argument, and the first argument is `call`. -/
def isStopCall (r : runner) (c : CallCommon) (call : Value) : Bool :=
  isStopCallee r c.staticCallee && c.args.length != 0 && c.args.head? == some call

/-- `runner.callStopIn`. -/
def callStopIn (r : runner) (instrs : List Instruction) (call : Value) : Bool :=
  match instrs with
  | [] => false
  | instr :: rest =>
    match instr.common? with
    | some c => if isStopCall r c call then true else callStopIn r rest call
    | none => callStopIn r rest call

/-- `runner.isReturnIter`. -/
def isReturnIter (instrs : List Instruction) (call : Value) : Bool :=
  match instrs.getLast? with
  | none => false
  | some (.ret _ results _) => results.contains call
  | some _ => false

/-- The `for _, s := range b.Succs` loop of `callStopInSuccs`: `walk s done` is the
recursive call on successor `s`, `rel s` is `callStopIn(s.Instrs, call)`. -/
def succsLoop (walk : Nat → List Nat → Option (Bool × List Nat)) (rel : Nat → Bool) :
    List Nat → List Nat → Option (Bool × List Nat)
  | [], done => some (true, done)
  | s :: ss, done =>
    if rel s then succsLoop walk rel ss done
    else
      match walk s done with
      | none => none
      | some (true, done') => succsLoop walk rel ss done'
      | some (false, done') => some (false, done')

/-- `runner.callStopInSuccs` with a bound `fuel` on the recursion depth; `none`
means the bound was reached.  The result carries the updated visited map. -/
def callStopInSuccsFuel (r : runner) (f : Function) (call : Value) :
    Nat → Nat → List Nat → Option (Bool × List Nat)
  | 0, _, _ => none
  | fuel + 1, b, done =>
    if done.contains b then some (false, done)
    else
      if (f.block b).succs.isEmpty then
        some (isReturnIter (f.block b).instrs call, b :: done)
      else
        succsLoop (callStopInSuccsFuel r f call fuel)
          (fun s => callStopIn r (f.block s).instrs call) (f.block b).succs (b :: done)

/-- `runner.callStopInSuccs`: the recursion depth never exceeds the number of
blocks plus one (`callStopInSuccsFuel_total`), so this is the value the Go
function returns. -/
def callStopInSuccs (r : runner) (f : Function) (b : Nat) (call : Value) (done : List Nat) :
    Bool × List Nat :=
  (callStopInSuccsFuel r f call (f.blocks.length + 1) b done).getD (false, done)

/-- `runner.unstop` for block `b` of `f` and instruction index `i`. -/
def unstop (r : runner) (f : Function) (b : Nat) (i : Nat) : Bool :=
  match (f.block b).instrs.get? i with
  | some (.call id typ _ _) =>
    if r.iterTyp ≠ some typ then false
    else if callStopIn r ((f.block b).instrs.drop i) id then false
    else if (callStopInSuccs r f b id []).1 then false
    else true
  | _ => false

/-- A reported diagnostic: position and message. -/
abbrev Diagnostic := Pos × String

/-- What the pass is given by the driver. -/
structure Pass where
  imports : List Package
  funcs : List Function
  ignorePos : Pos → String → Bool

/-- The body of the innermost loop of `run` for instruction `i` of block `b`: the
diagnostic reported there, if any. -/
def reportAt (r : runner) (pass : Pass) (f : Function) (b i : Nat) : List Diagnostic :=
  match (f.block b).instrs.get? i with
  | none => []
  | some instr =>
    if !pass.ignorePos instr.pos "zagane" &&
       !pass.ignorePos instr.pos "unstopiter" &&
       unstop r f b i then [(instr.pos, "iterator must be stop")]
    else []

/-- The three nested loops of `run` over functions, blocks and instructions. -/
def scan (r : runner) (pass : Pass) : List Diagnostic :=
  pass.funcs.flatMap fun f =>
    (List.range f.blocks.length).flatMap fun b =>
      (List.range (f.block b).instrs.length).flatMap fun i => reportAt r pass f b i

/-- The loop of `run` over the methods of the iterator type: every method whose
identifier is `Stop` overwrites `r.stopMthd`. -/
def findStop (methods : List Func) (cur : Option Func) : Option Func :=
  methods.foldl (fun acc m => if m.id == "Stop" then some m else acc) cur

/-- Result of `run`: the runner as left behind, the diagnostics reported, and
the error (`none` for a nil error). -/
structure RunResult where
  r : runner
  diags : List Diagnostic
  err : Option String
  deriving DecidableEq, Repr

/-- `runner.run`. -/
def run (r : runner) (pass : Pass) : RunResult :=
  let r := { r with iterObj := lookupFromImports pass.imports spannerPath "RowIterator" }
  match r.iterObj with
  | none => ⟨r, [], none⟩
  | some obj =>
    match obj.typ with
    | .named pkg name =>
      let r := { r with iterNamed := some (.named pkg name),
                        iterTyp := some (.pointer (.named pkg name)) }
      let r := { r with stopMthd := findStop obj.methods r.stopMthd }
      match r.stopMthd with
      | none => ⟨r, [], some "cannot find spanner.RowIterator.Stop"⟩
      | some _ => ⟨r, scan r pass, none⟩
    | _ => ⟨r, [], some "cannot find spanner.RowIterator"⟩

/-- Number of blocks of `f` not yet in the visited map. -/
def unvisited (f : Function) (done : List Nat) : Nat :=
  (Finset.range f.blocks.length \ done.toFinset).card

/-! ## Vocabulary of the specification -/

/-- The instruction list contains a release of `call`: a call instruction that
`callStopIn` recognises as the release method applied to `call`. -/
def HasRelease (r : runner) (instrs : List Instruction) (call : Value) : Prop :=
  ∃ instr ∈ instrs, ∃ c, instr.common? = some c ∧ isStopCall r c call = true

/-- The last instruction is a return that lists `call` among its results. -/
def ReturnsValue (instrs : List Instruction) (call : Value) : Prop :=
  ∃ rid results pos, instrs.getLast? = some (.ret rid results pos) ∧ call ∈ results

/-- Block `b` is terminal: it has no successors. -/
def Terminal (f : Function) (b : Nat) : Prop := (f.block b).succs = []

/-- An edge of the control-flow graph. -/
def Edge (f : Function) (a b : Nat) : Prop := b ∈ (f.block a).succs

/-- The blocks `s1, ..., sk` make a path `b -> s1 -> ... -> sk` that ends in a terminal
block (`b` itself when the list is empty). -/
def IsPath (f : Function) : Nat → List Nat → Prop
  | b, [] => Terminal f b
  | b, s :: rest => Edge f b s ∧ IsPath f s rest

/-- The path `b -> s1 -> ... -> sk` is covered: one of `s1 .. sk` contains a release of
`call`, or the terminal block at its end returns `call`. -/
def PathOK (r : runner) (f : Function) (call : Value) (b : Nat) (path : List Nat) : Prop :=
  (∃ s ∈ path, HasRelease r (f.block s).instrs call) ∨
    ReturnsValue (f.block (path.getLastD b)).instrs call

/-- Blocks entered below a list of successors: a successor that contains a release is
not entered, any other contributes the blocks entered from it (`walk`). -/
def enteredList (walk : Nat → Option (List Nat)) (rel : Nat → Bool) :
    List Nat → Option (List Nat)
  | [] => some []
  | s :: ss =>
    if rel s then enteredList walk rel ss
    else
      match walk s, enteredList walk rel ss with
      | some l, some ls => some (l ++ ls)
      | _, _ => none

/-- The blocks a walk from `b` enters when nothing stops it, one entry per path that
leads into the block: `b` itself, then, for every successor without a release of
`call`, the blocks entered from that successor.  `none` when some path is longer than
`fuel`, which is always the case when a cycle can be entered. -/
def entered (r : runner) (f : Function) (call : Value) : Nat → Nat → Option (List Nat)
  | 0, _ => none
  | fuel + 1, b =>
    (enteredList (entered r f call fuel)
      (fun s => callStopIn r (f.block s).instrs call) (f.block b).succs).map (fun l => b :: l)

/-! ## Example programs -/

/-- The iterator named type `spanner.RowIterator`. -/
def exIterNamed : Typ := .named spannerPath "RowIterator"

/-- The iterator pointer type `*spanner.RowIterator`. -/
def exIterTyp : Typ := .pointer exIterNamed

/-- Signature `func()` of the release method. -/
def exStopSig : Signature := ⟨[], [], false⟩

/-- The method `(*spanner.RowIterator).Stop` as a static callee. -/
def exStop : Callee := ⟨some spannerPath, some exIterTyp, "Stop", exStopSig⟩

/-- A producer of iterators, `spanner.Query`. -/
def exQuery : Callee := ⟨some spannerPath, none, "Query", ⟨[], [exIterTyp], false⟩⟩

/-- The object `RowIterator` of the library scope, with its methods. -/
def exIterObj : Object :=
  ⟨"RowIterator", exIterNamed, [⟨"Next", ⟨[], [.basic "error"], false⟩⟩, ⟨"Stop", exStopSig⟩]⟩

/-- The imported library package. -/
def exSpanner : Package := ⟨spannerPath, [exIterObj]⟩

/-- The runner after a successful resolution against `exSpanner`. -/
def exRunner : runner :=
  ⟨some exIterObj, some exIterNamed, some exIterTyp, some ⟨"Stop", exStopSig⟩⟩

/-- A pass over `funcs` with the library imported and no suppression comment. -/
def exPass (funcs : List Function) : Pass := ⟨[exSpanner], funcs, fun _ _ => false⟩

/-- The producing call `iter := Query()` with address `id` at position `pos`. -/
def exProduce (id : Value) (pos : Pos) : Instruction :=
  .call id exIterTyp ⟨some exQuery, []⟩ pos

/-- The release `v.Stop()` with address `id` at position `pos`. -/
def exRelease (id : Value) (v : Value) (pos : Pos) : Instruction :=
  .call id (.basic "()") ⟨some exStop, [v]⟩ pos

/-- The function `iter := Query(); if c { f() } else { g() }; iter.Stop(); return`:
block 0 `[P, if]` branches to blocks 1 and 2, which both jump to block 3
`[Stop(P), return]`. -/
def exJoinRelease : Function := ⟨[
  ⟨[exProduce 1 10, .other 2 none 11], [1, 2]⟩,
  ⟨[.other 3 none 12], [3]⟩,
  ⟨[.other 4 none 13], [3]⟩,
  ⟨[exRelease 5 1 14, .ret 6 [] 15], []⟩]⟩

/-- The function `iter := Query(); for { step() }`: block 0 `[P, jump]` enters block 1,
which loops on itself; no terminal block is reachable. -/
def exForever : Function := ⟨[
  ⟨[exProduce 1 10, .other 2 none 11], [1]⟩,
  ⟨[.other 3 none 12, .other 4 none 13], [1]⟩]⟩

/-- The function `iter := Query(); if c { f() } else { g() }; if d { h() }; iter.Stop();
return` in the shape of a diamond followed by the release: block 0 `[P, if]` branches to
blocks 1 and 2, both jump to the join block 3, which jumps to block 4
`[Stop(P), return]`. -/
def exDiamond : Function := ⟨[
  ⟨[exProduce 1 10, .other 2 none 11], [1, 2]⟩,
  ⟨[.other 3 none 12], [3]⟩,
  ⟨[.other 4 none 13], [3]⟩,
  ⟨[.other 5 none 14], [4]⟩,
  ⟨[exRelease 6 1 15, .ret 7 [] 16], []⟩]⟩

/-- The function `iter := Query(); if c { f() } else { g() }; return iter`: block 0
`[P, if]` branches to blocks 1 and 2, which both jump to block 3 `[return P]`. -/
def exDiamondReturn : Function := ⟨[
  ⟨[exProduce 1 10, .other 2 none 11], [1, 2]⟩,
  ⟨[.other 3 none 12], [3]⟩,
  ⟨[.other 4 none 13], [3]⟩,
  ⟨[.ret 5 [1] 14], []⟩]⟩

/-- The function `iter := Query(); if c { return iter } else { return iter }`: block 0
`[P, if]` branches to the terminal blocks 1 and 2, each `[return P]`. -/
def exBranchReturn : Function := ⟨[
  ⟨[exProduce 1 10, .other 2 none 11], [1, 2]⟩,
  ⟨[.ret 3 [1] 12], []⟩,
  ⟨[.ret 4 [1] 13], []⟩]⟩

/-- A function of the analysed package that uses an iterator, `main.step`. -/
def exStep : Callee := ⟨some "main", none, "step", ⟨[exIterTyp], [], false⟩⟩

/-- The function `a := Query(); b := Query(); a.Stop(); return` as one block. -/
def exTwo : Function := ⟨[
  ⟨[exProduce 1 10, exProduce 2 11, exRelease 3 1 12, .ret 4 [] 13], []⟩]⟩

/-- The function `iter := Query(); for { if done { iter.Stop(); break }; step(iter) }`:
entry block 0 `[P, jump]` enters the loop block 1 `[if done]`, which branches to the
release block 2 `[Stop(P), jump]` and the body block 3 `[step(P), jump]`; block 2 jumps
to the exit block 4 `[return]`, block 3 jumps back to block 1. -/
def exLoop : Function := ⟨[
  ⟨[exProduce 1 10, .other 2 none 11], [1]⟩,
  ⟨[.other 3 none 12], [2, 3]⟩,
  ⟨[exRelease 4 1 13, .other 5 none 14], [4]⟩,
  ⟨[.call 6 (.basic "()") ⟨some exStep, [1]⟩ 15, .other 7 none 16], [1]⟩,
  ⟨[.ret 8 [] 17], []⟩]⟩

/-- A pass over `funcs` with the library imported and the positions in `ignored`
suppressed under the tag `unstopiter`. -/
def exPassIgnoring (funcs : List Function) (ignored : List Pos) : Pass :=
  ⟨[exSpanner], funcs, fun p tag => tag == "unstopiter" && ignored.contains p⟩

/-- The function `a := Query(); b := Query(); return` as one block: two leaks. -/
def exTwoLeaks : Function := ⟨[
  ⟨[exProduce 1 10, exProduce 2 11, .ret 3 [] 12], []⟩]⟩

/-- A pass over a package that imports only `fmt`. -/
def exPassNoLibrary (funcs : List Function) : Pass :=
  ⟨[⟨"fmt", []⟩], funcs, fun _ _ => false⟩

/-- A pass over a package that imports a library at the target path whose scope has no
object `RowIterator`. -/
def exPassNoIterator (funcs : List Function) : Pass :=
  ⟨[⟨spannerPath, [⟨"Client", .named spannerPath "Client", []⟩]⟩], funcs, fun _ _ => false⟩

/-- A pass over a package that imports a library at the target path whose `RowIterator`
has the method `Next` only. -/
def exPassNoStop (funcs : List Function) : Pass :=
  ⟨[⟨spannerPath, [⟨"RowIterator", exIterNamed, [⟨"Next", ⟨[], [.basic "error"], false⟩⟩]⟩]⟩],
    funcs, fun _ _ => false⟩

/-- The function `iter := Query(); for { if done { return iter }; step(iter) }`: entry
block 0 `[P, jump]` enters the loop block 1 `[if done]`, which branches to the terminal
block 2 `[return P]` and the body block 3 `[step(P), jump]`, which jumps back to
block 1. -/
def exLoopReturn : Function := ⟨[
  ⟨[exProduce 1 10, .other 2 none 11], [1]⟩,
  ⟨[.other 3 none 12], [2, 3]⟩,
  ⟨[.ret 4 [1] 13], []⟩,
  ⟨[.call 5 (.basic "()") ⟨some exStep, [1]⟩ 14, .other 6 none 15], [1]⟩]⟩

/-- A block whose instructions are not producers: a phi of the iterator pointer type, a
`go` and a `defer` of the producing function, a call whose type is a pointer to another
type named `RowIterator`, and the return. -/
def exNonProducers : Function := ⟨[
  ⟨[.other 1 (some exIterTyp) 10,
    .go 2 ⟨some exQuery, []⟩ 11,
    .defer 3 ⟨some exQuery, []⟩ 12,
    .call 4 (.pointer (.named "example.com/other" "RowIterator")) ⟨some exQuery, []⟩ 13,
    .ret 5 [] 14], []⟩]⟩

/-- The function `iter := Query(); defer iter.Stop(); use(iter); return` with the
deferred release in the block of the producer: block 0 `[P, defer Stop(P), step(P), jump]`
enters block 1 `[return]`. -/
def exDeferred : Function := ⟨[
  ⟨[exProduce 1 10, .defer 2 ⟨some exStop, [1]⟩ 11,
    .call 3 (.basic "()") ⟨some exStep, [1]⟩ 12, .other 4 none 13], [1]⟩,
  ⟨[.ret 5 [] 14], []⟩]⟩

/-- A release through an interface: `Stop` invoked on the iterator without a static
callee. -/
def exDynamicStop (id : Value) (v : Value) (pos : Pos) : Instruction :=
  .call id (.basic "()") ⟨none, [v]⟩ pos

/-- The function `iter := Query(); stopper.Stop(iter); return` as one block, the release
being dispatched dynamically. -/
def exDynamic : Function := ⟨[
  ⟨[exProduce 1 10, exDynamicStop 2 1 11, .ret 3 [] 12], []⟩]⟩

/-- The method `Stop` of a type named `RowIterator` declared in another package, with the
signature of the release method. -/
def exOtherStop : Callee :=
  ⟨some "example.com/other", some (.pointer (.named "example.com/other" "RowIterator")),
    "Stop", exStopSig⟩

/-- The function `iter := Query(); return` whose producing call has no position. -/
def exNoPos : Function := ⟨[⟨[exProduce 1 0, .ret 2 [] 11], []⟩]⟩

/-- The body of `isReturnIter` with the index access spelled out: `none` stands for an
index out of range at `instrs[len(instrs)-1]`. -/
def isReturnIterChecked (instrs : List Instruction) (call : Value) : Option Bool :=
  if instrs.length = 0 then some false
  else
    match instrs.get? (instrs.length - 1) with
    | none => none
    | some (.ret _ results _) => some (results.contains call)
    | some _ => some false

/-- The successor loop of `callStopInSuccs`, counting the recursive calls: the result
carries, after the verdict and the visited map, the number of calls of the walk made by
the loop and below it. -/
def succsLoopCount (walk : Nat → List Nat → Option (Bool × List Nat × Nat))
    (rel : Nat → Bool) : List Nat → List Nat → Option (Bool × List Nat × Nat)
  | [], done => some (true, done, 0)
  | s :: ss, done =>
    if rel s then succsLoopCount walk rel ss done
    else
      match walk s done with
      | none => none
      | some (true, done', n) =>
        match succsLoopCount walk rel ss done' with
        | none => none
        | some (res, done'', m) => some (res, done'', n + 1 + m)
      | some (false, done', n) => some (false, done', n + 1)

/-- The walk `callStopInSuccsFuel`, counting the recursive calls it makes: same verdict
and visited map, and the number of calls of `callStopInSuccs` made below this one. -/
def callStopInSuccsCount (r : runner) (f : Function) (call : Value) :
    Nat → Nat → List Nat → Option (Bool × List Nat × Nat)
  | 0, _, _ => none
  | fuel + 1, b, done =>
    if done.contains b then some (false, done, 0)
    else
      if (f.block b).succs.isEmpty then
        some (isReturnIter (f.block b).instrs call, b :: done, 0)
      else
        succsLoopCount (callStopInSuccsCount r f call fuel)
          (fun s => callStopIn r (f.block s).instrs call) (f.block b).succs (b :: done)

/-- Number of edges that leave the blocks of a list. -/
def edgesOut (f : Function) (bs : List Nat) : Nat :=
  (bs.map (fun b => (f.block b).succs.length)).sum

/-- The unfolding behind `entered` for an arbitrary successor function and an arbitrary
test `rel` of the successors that are not entered: the block `b`, then the unfoldings of
its successors that fail the test, one entry per path. -/
def enteredBy (succs : Nat → List Nat) (rel : Nat → Bool) : Nat → Nat → Option (List Nat)
  | 0, _ => none
  | fuel + 1, b => (enteredList (enteredBy succs rel fuel) rel (succs b)).map (fun l => b :: l)

/-- The function `f'` is `f` with the successor list of each block permuted: same number
of blocks, same instructions, and for each block a permutation of its successors. -/
def SuccsPermuted (f f' : Function) : Prop :=
  f'.blocks.length = f.blocks.length ∧
    ∀ b, b < f.blocks.length →
      (f'.block b).instrs = (f.block b).instrs ∧ (f'.block b).succs.Perm (f.block b).succs

/-- The diamond followed by the release, with the successors of the entry block in the
other order. -/
def exDiamondSwapped : Function := ⟨[
  ⟨[exProduce 1 10, .other 2 none 11], [2, 1]⟩,
  ⟨[.other 3 none 12], [3]⟩,
  ⟨[.other 4 none 13], [3]⟩,
  ⟨[.other 5 none 14], [4]⟩,
  ⟨[exRelease 6 1 15, .ret 7 [] 16], []⟩]⟩

/-- The function `f` with the instruction `instr` inserted into block `X` before the
instruction at index `k` (at the end of the block when `k` is not smaller than its
length); a block index outside the function changes nothing. -/
def insertInstr (f : Function) (X k : Nat) (instr : Instruction) : Function :=
  ⟨f.blocks.set X
    ⟨(f.block X).instrs.take k ++ instr :: (f.block X).instrs.drop k, (f.block X).succs⟩⟩

/-- The blocks reachable from `b`, one entry per path from `b` that leads to the block:
`b` itself, then this list for each successor.  `none` when some path is longer than
`fuel`, which is always the case when a cycle is reachable.  The region reachable from
`b` is a tree exactly when this list exists and has no repetition. -/
def reached (f : Function) (fuel b : Nat) : Option (List Nat) :=
  enteredBy (fun b => (f.block b).succs) (fun _ => false) fuel b

/-- Conjunction of a test over a list of successors; `none` when the test is undefined
for one of them. -/
def allSuccs (chk : Nat → Option Bool) : List Nat → Option Bool
  | [] => some true
  | s :: ss =>
    match chk s, allSuccs chk ss with
    | some x, some y => some (x && y)
    | _, _ => none

/-- The predicate `R` of the specification, without visited set:
`R(b) = isReturnIter(b.Instrs, P)` when `b` has no successors, and otherwise `R(b)` holds
when for all successors `s` of `b`, `callStopIn(s.Instrs, P)` or `R(s)`.  The recursion
depth is bounded by `fuel`; `none` means the bound was reached. -/
def R (r : runner) (f : Function) (P : Value) : Nat → Nat → Option Bool
  | 0, _ => none
  | fuel + 1, b =>
    if (f.block b).succs.isEmpty then some (isReturnIter (f.block b).instrs P)
    else
      allSuccs (fun s => if callStopIn r (f.block s).instrs P then some true
        else R r f P fuel s) (f.block b).succs

/-- The function `iter := Query(); if c { return iter } else { return nil }`: block 0
`[P, if]` branches to block 1 `[return P]` and block 2 `[return]`. -/
def exBranchLeak : Function := ⟨[
  ⟨[exProduce 1 10, .other 2 none 11], [1, 2]⟩,
  ⟨[.ret 3 [1] 12], []⟩,
  ⟨[.ret 4 [] 13], []⟩]⟩

/-- Typing of one call on `P`, a value of type `typ`, as go/ssa builds it: a static callee
that is a method takes its receiver as first operand, so when the first operand is `P`
the receiver type of the callee is the type of `P`; a static callee that is not a method
is named by a Go identifier, which contains no parenthesis. -/
def receiverTypedCall (c : CallCommon) (P : Value) (typ : Typ) : Bool :=
  match c.staticCallee with
  | none => true
  | some fn =>
    if c.args.head? = some P then
      match fn.recv with
      | some t => decide (t = typ)
      | none => !fn.name.data.contains '('
    else true

/-- Typing of the calls on `P`, a value of type `typ`, in an instruction list: every
call-like instruction satisfies `receiverTypedCall`. -/
def receiverTyped (instrs : List Instruction) (P : Value) (typ : Typ) : Bool :=
  instrs.all fun instr =>
    match instr.common? with
    | some c => receiverTypedCall c P typ
    | none => true

/-- A constructor of the other package, `other.NewRowIterator`. -/
def exOtherNew : Callee :=
  ⟨some "example.com/other", none, "NewRowIterator",
    ⟨[], [.pointer (.named "example.com/other" "RowIterator")], false⟩⟩

/-- The function `iter := Query(); o := other.NewRowIterator(); o.Stop(); return` as one
block: the only call named `Stop` is the method of the type `RowIterator` of the other
package, applied to a value of that type. -/
def exOtherTyped : Function := ⟨[
  ⟨[exProduce 1 10,
    .call 2 (.pointer (.named "example.com/other" "RowIterator")) ⟨some exOtherNew, []⟩ 11,
    .call 3 (.basic "()") ⟨some exOtherStop, [2]⟩ 12,
    .ret 4 [] 13], []⟩]⟩

/-! ## Properties of the walk and of the pass -/

theorem block_succs_of_ge (f : Function) (b : Nat) (h : f.blocks.length ≤ b) :
    (f.block b).succs = [] := by
  unfold Function.block
  rw [List.getD_eq_default _ _ h]

theorem unvisited_le (f : Function) (done : List Nat) : unvisited f done ≤ f.blocks.length := by
  unfold unvisited
  calc _ ≤ (Finset.range f.blocks.length).card := Finset.card_le_card Finset.sdiff_subset
    _ = _ := Finset.card_range _

theorem unvisited_mono (f : Function) (done done' : List Nat) (h : ∀ x ∈ done, x ∈ done') :
    unvisited f done' ≤ unvisited f done := by
  unfold unvisited
  apply Finset.card_le_card
  intro x hx
  simp only [Finset.mem_sdiff, Finset.mem_range, List.mem_toFinset] at hx ⊢
  exact ⟨hx.1, fun hd => hx.2 (h x hd)⟩

theorem unvisited_cons_lt (f : Function) (done : List Nat) (b : Nat)
    (hb : b < f.blocks.length) (hnd : b ∉ done) :
    unvisited f (b :: done) < unvisited f done := by
  unfold unvisited
  apply Finset.card_lt_card
  rw [Finset.ssubset_iff_of_subset]
  · refine ⟨b, ?_, ?_⟩
    · simp [hb, hnd]
    · simp
  · intro x hx
    simp only [Finset.mem_sdiff, Finset.mem_range, List.mem_toFinset, List.mem_cons, not_or] at hx ⊢
    exact ⟨hx.1, hx.2.2⟩

/-- The successor loop returns when the recursive calls it makes do, and only grows the
visited map. -/
theorem succsLoop_total (f : Function) (walk : Nat → List Nat → Option (Bool × List Nat))
    (rel : Nat → Bool) (m : Nat)
    (hw : ∀ s done, unvisited f done ≤ m →
      ∃ res done', walk s done = some (res, done') ∧ ∀ x ∈ done, x ∈ done') :
    ∀ (ss : List Nat) (done : List Nat), unvisited f done ≤ m →
      ∃ res done', succsLoop walk rel ss done = some (res, done') ∧ ∀ x ∈ done, x ∈ done' := by
  intro ss
  induction ss with
  | nil => intro done _; exact ⟨true, done, rfl, fun _ h => h⟩
  | cons s ss ih =>
    intro done hm
    unfold succsLoop
    by_cases hr : rel s = true
    · simp only [hr, if_true]; exact ih done hm
    · simp only [hr]
      obtain ⟨res, d1, h1, hsub⟩ := hw s done hm
      rw [h1]
      cases res with
      | false => exact ⟨false, d1, rfl, hsub⟩
      | true =>
        obtain ⟨res2, d2, h2, hsub2⟩ := ih d1 (le_trans (unvisited_mono f done d1 hsub) hm)
        exact ⟨res2, d2, h2, fun x hx => hsub2 x (hsub x hx)⟩

/-- Termination of the walk: with more fuel than there are unvisited blocks the walk
returns, and the visited map only grows. -/
theorem callStopInSuccsFuel_total (r : runner) (f : Function) (call : Value) :
    ∀ (fuel b : Nat) (done : List Nat), unvisited f done < fuel →
      ∃ res done', callStopInSuccsFuel r f call fuel b done = some (res, done') ∧
        ∀ x ∈ done, x ∈ done' := by
  intro fuel
  induction fuel with
  | zero => intro b done h; omega
  | succ fuel ih =>
    intro b done hlt
    unfold callStopInSuccsFuel
    by_cases hd : done.contains b = true
    · simp only [hd, if_true]; exact ⟨false, done, rfl, fun _ h => h⟩
    · simp only [hd]
      by_cases ht : (f.block b).succs.isEmpty = true
      · simp only [ht, if_true]
        exact ⟨_, _, rfl, fun x hx => List.mem_cons_of_mem _ hx⟩
      · simp only [ht]
        have hb : b < f.blocks.length := by
          by_contra hge
          rw [block_succs_of_ge f b (not_lt.mp hge)] at ht
          exact ht rfl
        have hnd : b ∉ done := by
          intro hmem
          exact hd (by simpa using hmem)
        have hlt2 : unvisited f (b :: done) ≤ fuel - 1 := by
          have := unvisited_cons_lt f done b hb hnd
          omega
        have hpos : 0 < fuel := by
          have := unvisited_cons_lt f done b hb hnd
          omega
        obtain ⟨res, d', h, hsub⟩ := succsLoop_total f (callStopInSuccsFuel r f call fuel)
          (fun s => callStopIn r (f.block s).instrs call) (fuel - 1)
          (fun s d hd => ih s d (by omega)) (f.block b).succs (b :: done) hlt2
        exact ⟨res, d', h, fun x hx => hsub x (List.mem_cons_of_mem _ hx)⟩

theorem succsLoop_congr_some (walk walk' : Nat → List Nat → Option (Bool × List Nat))
    (rel : Nat → Bool)
    (hw : ∀ s done x, walk s done = some x → walk' s done = some x) :
    ∀ (ss : List Nat) (done : List Nat) (x : Bool × List Nat),
      succsLoop walk rel ss done = some x → succsLoop walk' rel ss done = some x := by
  intro ss
  induction ss with
  | nil => intro done x h; simpa [succsLoop] using h
  | cons s ss ih =>
    intro done x h
    unfold succsLoop at h ⊢
    by_cases hr : rel s = true
    · simp only [hr, if_true] at h ⊢; exact ih done x h
    · simp only [hr] at h ⊢
      cases hws : walk s done with
      | none => rw [hws] at h; simp at h
      | some y =>
        rw [hws] at h
        rw [hw s done y hws]
        obtain ⟨res, d1⟩ := y
        cases res with
        | false => exact h
        | true => exact ih d1 x h

/-- A result obtained with some fuel is obtained with any larger fuel. -/
theorem callStopInSuccsFuel_succ (r : runner) (f : Function) (call : Value) :
    ∀ (fuel b : Nat) (done : List Nat) (x : Bool × List Nat),
      callStopInSuccsFuel r f call fuel b done = some x →
      callStopInSuccsFuel r f call (fuel + 1) b done = some x := by
  intro fuel
  induction fuel with
  | zero => intro b done x h; simp [callStopInSuccsFuel] at h
  | succ fuel ih =>
    intro b done x h
    unfold callStopInSuccsFuel at h ⊢
    by_cases hd : done.contains b = true
    · simp only [hd, if_true] at h ⊢; exact h
    · simp only [hd] at h ⊢
      by_cases ht : (f.block b).succs.isEmpty = true
      · simp only [ht, if_true] at h ⊢; exact h
      · simp only [ht] at h ⊢
        exact succsLoop_congr_some _ _ _ (fun s d y hy => ih s d y hy) _ _ _ h

theorem callStopInSuccsFuel_mono (r : runner) (f : Function) (call : Value)
    (fuel fuel' b : Nat) (done : List Nat) (x : Bool × List Nat) (hle : fuel ≤ fuel')
    (h : callStopInSuccsFuel r f call fuel b done = some x) :
    callStopInSuccsFuel r f call fuel' b done = some x := by
  induction hle with
  | refl => exact h
  | step _ ih => exact callStopInSuccsFuel_succ r f call _ b done x ih

/-- The fuel used by `callStopInSuccs` is enough: it returns what the walk returns with
any fuel that lets it finish. -/
theorem callStopInSuccs_eq_of_fuel (r : runner) (f : Function) (call : Value)
    (fuel b : Nat) (done : List Nat) (x : Bool × List Nat)
    (h : callStopInSuccsFuel r f call fuel b done = some x) :
    callStopInSuccs r f b call done = x := by
  obtain ⟨res, d', h', _⟩ := callStopInSuccsFuel_total r f call (f.blocks.length + 1) b done
    (Nat.lt_succ_of_le (unvisited_le f done))
  have h1 := callStopInSuccsFuel_mono r f call _ (max fuel (f.blocks.length + 1)) b done _
    (le_max_left _ _) h
  have h2 := callStopInSuccsFuel_mono r f call _ (max fuel (f.blocks.length + 1)) b done _
    (le_max_right _ _) h'
  unfold callStopInSuccs
  rw [h']
  rw [h1] at h2
  simpa using h2.symm

theorem callStopInSuccs_spec (r : runner) (f : Function) (call : Value)
    (b : Nat) (done : List Nat) :
    callStopInSuccsFuel r f call (f.blocks.length + 1) b done =
      some (callStopInSuccs r f b call done) := by
  obtain ⟨res, d', h', _⟩ := callStopInSuccsFuel_total r f call (f.blocks.length + 1) b done
    (Nat.lt_succ_of_le (unvisited_le f done))
  rw [h', callStopInSuccs_eq_of_fuel r f call _ b done _ h']

theorem callStopIn_iff (r : runner) (instrs : List Instruction) (call : Value) :
    callStopIn r instrs call = true ↔ HasRelease r instrs call := by
  induction instrs with
  | nil => simp [callStopIn, HasRelease]
  | cons instr rest ih =>
    unfold callStopIn
    unfold HasRelease at ih ⊢
    cases hc : instr.common? with
    | none =>
      simp only [ih, List.mem_cons, exists_eq_or_imp, hc]
      simp
    | some c =>
      by_cases hs : isStopCall r c call = true
      · simp only [hs, if_true, true_iff]
        exact ⟨instr, List.mem_cons_self _ _, c, hc, hs⟩
      · simp only [hs, List.mem_cons, exists_eq_or_imp, hc]
        simp [hs, ih]

theorem isReturnIter_iff (instrs : List Instruction) (call : Value) :
    isReturnIter instrs call = true ↔ ReturnsValue instrs call := by
  unfold isReturnIter ReturnsValue
  cases h : instrs.getLast? with
  | none => simp
  | some i =>
    cases i with
    | ret rid results pos =>
      simp only [Option.some.injEq, Instruction.ret.injEq]
      constructor
      · intro hm; exact ⟨rid, results, pos, ⟨rfl, rfl, rfl⟩, by simpa using hm⟩
      · rintro ⟨_, _, _, ⟨_, h2, _⟩, hm⟩; rw [h2]; simpa using hm
    | _ => simp

theorem PathOK_cons (r : runner) (f : Function) (call : Value) (b s : Nat) (rest : List Nat)
    (h : PathOK r f call s rest) : PathOK r f call b (s :: rest) := by
  rcases h with ⟨t, ht, hrel⟩ | hret
  · exact Or.inl ⟨t, List.mem_cons_of_mem _ ht, hrel⟩
  · right
    cases rest with
    | nil => simpa using hret
    | cons t ts => simpa using hret

theorem succsLoop_true (walk : Nat → List Nat → Option (Bool × List Nat)) (rel : Nat → Bool)
    (P : Nat → Prop) (hw : ∀ s d d', walk s d = some (true, d') → P s) :
    ∀ (ss : List Nat) (done d' : List Nat), succsLoop walk rel ss done = some (true, d') →
      ∀ s ∈ ss, rel s = true ∨ P s := by
  intro ss
  induction ss with
  | nil => intro _ _ _ s hs; simp at hs
  | cons t ts ih =>
    intro done d' h s hs
    unfold succsLoop at h
    by_cases hr : rel t = true
    · simp only [hr, if_true] at h
      rcases List.mem_cons.mp hs with rfl | hmem
      · exact Or.inl hr
      · exact ih done d' h s hmem
    · simp only [hr, Bool.false_eq_true, if_false] at h
      cases hwt : walk t done with
      | none => rw [hwt] at h; simp at h
      | some y =>
        rw [hwt] at h
        obtain ⟨res, d1⟩ := y
        cases res with
        | false => simp at h
        | true =>
          rcases List.mem_cons.mp hs with rfl | hmem
          · exact Or.inr (hw _ done d1 hwt)
          · exact ih d1 d' h s hmem

/-- Soundness of acceptance by the walk: when it answers `true` for `b`, every path from
`b` to a terminal block is covered. -/
theorem callStopInSuccsFuel_true_sound (r : runner) (f : Function) (call : Value) :
    ∀ (fuel b : Nat) (done d' : List Nat),
      callStopInSuccsFuel r f call fuel b done = some (true, d') →
      ∀ path, IsPath f b path → PathOK r f call b path := by
  intro fuel
  induction fuel with
  | zero => intro b done d' h; simp [callStopInSuccsFuel] at h
  | succ fuel ih =>
    intro b done d' h path hp
    unfold callStopInSuccsFuel at h
    by_cases hd : done.contains b = true
    · simp only [hd, if_true] at h; simp at h
    · simp only [hd, Bool.false_eq_true, if_false] at h
      by_cases ht : (f.block b).succs.isEmpty = true
      · simp only [ht, if_true, Option.some.injEq, Prod.mk.injEq] at h
        have hnil : (f.block b).succs = [] := by simpa using ht
        cases path with
        | nil => exact Or.inr ((isReturnIter_iff _ _).mp h.1)
        | cons s rest =>
          have := hp.1
          unfold Edge at this
          rw [hnil] at this
          simp at this
      · simp only [ht, Bool.false_eq_true, if_false] at h
        have hall := succsLoop_true _ _
          (fun s => ∀ path, IsPath f s path → PathOK r f call s path)
          (fun s d d1 hs => ih s d d1 hs) _ _ _ h
        cases path with
        | nil =>
          have : (f.block b).succs = [] := hp
          rw [this] at ht
          simp at ht
        | cons s rest =>
          rcases hall s hp.1 with hrel | hP
          · exact Or.inl ⟨s, List.mem_cons_self _ _, (callStopIn_iff _ _ _).mp hrel⟩
          · exact PathOK_cons r f call b s rest (hP rest hp.2)

theorem succsLoop_false (walk : Nat → List Nat → Option (Bool × List Nat)) (rel : Nat → Bool)
    (s : Nat) (ss : List Nat) (done : List Nat) (x : Bool × List Nat)
    (hrel : rel s = false) (hw : ∀ d y, walk s d = some y → y.1 = false)
    (h : succsLoop walk rel (s :: ss) done = some x) : x.1 = false := by
  unfold succsLoop at h
  simp only [hrel, Bool.false_eq_true, if_false] at h
  cases hws : walk s done with
  | none => rw [hws] at h; simp at h
  | some y =>
    rw [hws] at h
    have hy := hw done y hws
    obtain ⟨res, d1⟩ := y
    simp only at hy
    subst hy
    simp only [Option.some.injEq] at h
    rw [← h]

/-- When no block reachable from `b` through at least one edge contains a release and no
reachable terminal block returns the value, the walk answers `false` whenever it
answers. -/
theorem callStopInSuccsFuel_false_of_leak (r : runner) (f : Function) (call : Value) :
    ∀ (fuel b : Nat) (done : List Nat) (x : Bool × List Nat),
      (∀ c s, Relation.ReflTransGen (Edge f) b c → Edge f c s →
        callStopIn r (f.block s).instrs call = false) →
      (∀ c, Relation.ReflTransGen (Edge f) b c → Terminal f c →
        isReturnIter (f.block c).instrs call = false) →
      callStopInSuccsFuel r f call fuel b done = some x → x.1 = false := by
  intro fuel
  induction fuel with
  | zero => intro b done x _ _ h; simp [callStopInSuccsFuel] at h
  | succ fuel ih =>
    intro b done x hrel hret h
    unfold callStopInSuccsFuel at h
    by_cases hd : done.contains b = true
    · simp only [hd, if_true, Option.some.injEq] at h; rw [← h]
    · simp only [hd, Bool.false_eq_true, if_false] at h
      by_cases ht : (f.block b).succs.isEmpty = true
      · simp only [ht, if_true, Option.some.injEq] at h
        rw [← h]
        exact hret b Relation.ReflTransGen.refl (by simpa [Terminal] using ht)
      · simp only [ht, Bool.false_eq_true, if_false] at h
        cases hs : (f.block b).succs with
        | nil => rw [hs] at ht; simp at ht
        | cons s ss =>
          rw [hs] at h
          have hedge : Edge f b s := by unfold Edge; rw [hs]; exact List.mem_cons_self _ _
          refine succsLoop_false _ _ s ss _ x
            (hrel b s Relation.ReflTransGen.refl hedge) ?_ h
          intro d y hy
          refine ih s d y ?_ ?_ hy
          · intro c t hc hct
            exact hrel c t (Relation.ReflTransGen.head hedge hc) hct
          · intro c hc htc
            exact hret c (Relation.ReflTransGen.head hedge hc) htc

theorem succsLoop_tree (walk : Nat → List Nat → Option (Bool × List Nat))
    (ent : Nat → Option (List Nat)) (rel : Nat → Bool) (Q : Nat → Prop)
    (hw : ∀ s l done, Q s → ent s = some l → l.Nodup → (∀ x ∈ l, x ∉ done) →
      ∃ d', walk s done = some (true, d') ∧ ∀ x ∈ d', x ∈ done ∨ x ∈ l) :
    ∀ (ss : List Nat) (ls done : List Nat), (∀ s ∈ ss, rel s = false → Q s) →
      enteredList ent rel ss = some ls → ls.Nodup → (∀ x ∈ ls, x ∉ done) →
      ∃ d', succsLoop walk rel ss done = some (true, d') ∧ ∀ x ∈ d', x ∈ done ∨ x ∈ ls := by
  intro ss
  induction ss with
  | nil =>
    intro ls done _ _ _ _
    exact ⟨done, rfl, fun x hx => Or.inl hx⟩
  | cons s ss ih =>
    intro ls done hQ he hnd hdisj
    have hQ' : ∀ t ∈ ss, rel t = false → Q t := fun t ht => hQ t (List.mem_cons_of_mem _ ht)
    unfold enteredList at he
    unfold succsLoop
    by_cases hr : rel s = true
    · simp only [hr, if_true] at he ⊢
      exact ih ls done hQ' he hnd hdisj
    · simp only [hr, Bool.false_eq_true, if_false] at he ⊢
      cases hes : ent s with
      | none => rw [hes] at he; simp at he
      | some l =>
        cases hel : enteredList ent rel ss with
        | none => rw [hes, hel] at he; simp at he
        | some ls' =>
          rw [hes, hel] at he
          simp only [Option.some.injEq] at he
          subst he
          rw [List.nodup_append] at hnd
          obtain ⟨hn1, hn2, hdj⟩ := hnd
          obtain ⟨d1, h1, hsub1⟩ := hw s l done
            (hQ s (List.mem_cons_self _ _) (by simpa using hr)) hes hn1
            (fun x hx => hdisj x (List.mem_append_left _ hx))
          rw [h1]
          simp only
          obtain ⟨d2, h2, hsub2⟩ := ih ls' d1 hQ' hel hn2 (by
            intro x hx hxd
            rcases hsub1 x hxd with hd | hl
            · exact hdisj x (List.mem_append_right _ hx) hd
            · exact hdj hl hx)
          refine ⟨d2, h2, ?_⟩
          intro x hx
          rcases hsub2 x hx with hd | hl
          · rcases hsub1 x hd with hd' | hl'
            · exact Or.inl hd'
            · exact Or.inr (List.mem_append_left _ hl')
          · exact Or.inr (List.mem_append_right _ hl)

theorem PathOK_tail (r : runner) (f : Function) (call : Value) (b s : Nat) (rest : List Nat)
    (hs : callStopIn r (f.block s).instrs call = false)
    (h : PathOK r f call b (s :: rest)) : PathOK r f call s rest := by
  rcases h with ⟨t, ht, hrel⟩ | hret
  · rcases List.mem_cons.mp ht with rfl | hmem
    · rw [(callStopIn_iff _ _ _).mpr hrel] at hs
      simp at hs
    · exact Or.inl ⟨t, hmem, hrel⟩
  · right
    cases rest with
    | nil => simpa using hret
    | cons t ts => simpa using hret

/-- Acceptance on a region the walk enters without meeting a block twice: if every block
it enters is entered along one path only and every path to a terminal block is covered,
the walk answers `true`. -/
theorem callStopInSuccsFuel_tree (r : runner) (f : Function) (call : Value) :
    ∀ (fuel b : Nat) (l done : List Nat), entered r f call fuel b = some l → l.Nodup →
      (∀ x ∈ l, x ∉ done) → (∀ path, IsPath f b path → PathOK r f call b path) →
      ∃ d', callStopInSuccsFuel r f call fuel b done = some (true, d') ∧
        ∀ x ∈ d', x ∈ done ∨ x ∈ l := by
  intro fuel
  induction fuel with
  | zero => intro b l done h; simp [entered] at h
  | succ fuel ih =>
    intro b l done he hnd hdisj hpaths
    unfold entered at he
    cases hel : enteredList (entered r f call fuel)
        (fun s => callStopIn r (f.block s).instrs call) (f.block b).succs with
    | none => rw [hel] at he; simp at he
    | some ls =>
      rw [hel] at he
      simp only [Option.map_some', Option.some.injEq] at he
      subst he
      have hbd : done.contains b = false := by
        have := hdisj b (List.mem_cons_self _ _)
        simpa using this
      unfold callStopInSuccsFuel
      simp only [hbd, Bool.false_eq_true, if_false]
      by_cases ht : (f.block b).succs.isEmpty = true
      · simp only [ht, if_true]
        have hnil : (f.block b).succs = [] := by simpa using ht
        have hret : isReturnIter (f.block b).instrs call = true := by
          rcases hpaths [] hnil with ⟨t, ht', _⟩ | hret
          · simp at ht'
          · exact (isReturnIter_iff _ _).mpr (by simpa using hret)
        rw [hret]
        refine ⟨b :: done, rfl, ?_⟩
        intro x hx
        rcases List.mem_cons.mp hx with rfl | hd
        · exact Or.inr (List.mem_cons_self _ _)
        · exact Or.inl hd
      · simp only [ht, Bool.false_eq_true, if_false]
        rw [List.nodup_cons] at hnd
        obtain ⟨d', h', hsub⟩ := succsLoop_tree (callStopInSuccsFuel r f call fuel)
          (entered r f call fuel) (fun s => callStopIn r (f.block s).instrs call)
          (fun s => ∀ path, IsPath f s path → PathOK r f call s path)
          (fun s l d hQ hes hn hdj => ih s l d hes hn hdj hQ)
          (f.block b).succs ls (b :: done)
          (fun s hs hrel path hp => PathOK_tail r f call b s path hrel (hpaths (s :: path) ⟨hs, hp⟩))
          hel hnd.2
          (by
            intro x hx hxd
            rcases List.mem_cons.mp hxd with rfl | hd
            · exact hnd.1 hx
            · exact hdisj x (List.mem_cons_of_mem _ hx) hd)
        refine ⟨d', h', ?_⟩
        intro x hx
        rcases hsub x hx with hd | hl
        · rcases List.mem_cons.mp hd with rfl | hd'
          · exact Or.inr (List.mem_cons_self _ _)
          · exact Or.inl hd'
        · exact Or.inr (List.mem_cons_of_mem _ hl)

/-- The verdict of `unstop` on a producing call of the iterator pointer type. -/
theorem unstop_producer (r : runner) (f : Function) (B i : Nat) (id : Value) (typ : Typ)
    (c : CallCommon) (pos : Pos)
    (hP : (f.block B).instrs.get? i = some (.call id typ c pos))
    (hT : r.iterTyp = some typ) :
    unstop r f B i =
      (!callStopIn r ((f.block B).instrs.drop i) id && !(callStopInSuccs r f B id []).1) := by
  unfold unstop
  rw [hP]
  simp only [hT, ne_eq, not_true_eq_false, if_false]
  cases callStopIn r ((f.block B).instrs.drop i) id <;>
    cases (callStopInSuccs r f B id []).1 <;> simp

/-- C1. Acceptance is sound: when `unstop` answers `false` for a producing call `P` of
the iterator pointer type at `B.Instrs[i]`, then `B.Instrs[i:]` contains a release of
`P`, or every path from `B` to a terminal block passes through a later block that
contains a release of `P` or ends in a block whose last instruction returns `P`. -/
theorem unstop_false_sound (r : runner) (f : Function) (B i : Nat) (id : Value) (typ : Typ)
    (c : CallCommon) (pos : Pos)
    (hP : (f.block B).instrs.get? i = some (.call id typ c pos))
    (hT : r.iterTyp = some typ)
    (h : unstop r f B i = false) :
    HasRelease r ((f.block B).instrs.drop i) id ∨
      ∀ path, IsPath f B path →
        (∃ s ∈ path, HasRelease r (f.block s).instrs id) ∨
          ReturnsValue (f.block (path.getLastD B)).instrs id := by
  rw [unstop_producer r f B i id typ c pos hP hT] at h
  cases htail : callStopIn r ((f.block B).instrs.drop i) id with
  | true => exact Or.inl ((callStopIn_iff _ _ _).mp htail)
  | false =>
    right
    rw [htail] at h
    have hs : (callStopInSuccs r f B id []).1 = true := by simpa using h
    have hspec := callStopInSuccs_spec r f id B []
    intro path hp
    exact callStopInSuccsFuel_true_sound r f id _ B [] (callStopInSuccs r f B id []).2
      (by rw [hspec, ← hs]) path hp

/-- Instance of C1 on the if/else whose join block releases the iterator. -/
theorem unstop_false_sound_witness :
    (exJoinRelease.block 0).instrs.get? 0 = some (.call 1 exIterTyp ⟨some exQuery, []⟩ 10) ∧
    exRunner.iterTyp = some exIterTyp ∧
    unstop exRunner exJoinRelease 0 0 = false ∧
    (HasRelease exRunner ((exJoinRelease.block 0).instrs.drop 0) 1 ∨
      ∀ path, IsPath exJoinRelease 0 path →
        (∃ s ∈ path, HasRelease exRunner (exJoinRelease.block s).instrs 1) ∨
          ReturnsValue (exJoinRelease.block (path.getLastD 0)).instrs 1) :=
  ⟨by decide, by decide, by decide,
    unstop_false_sound exRunner exJoinRelease 0 0 1 exIterTyp ⟨some exQuery, []⟩ 10
      (by decide) (by decide) (by decide)⟩

theorem mem_reportAt (r : runner) (pass : Pass) (f : Function) (b i : Nat) (d : Diagnostic) :
    d ∈ reportAt r pass f b i ↔
      ∃ instr, (f.block b).instrs.get? i = some instr ∧
        pass.ignorePos instr.pos "zagane" = false ∧
        pass.ignorePos instr.pos "unstopiter" = false ∧
        unstop r f b i = true ∧ d = (instr.pos, "iterator must be stop") := by
  unfold reportAt
  cases h : (f.block b).instrs.get? i with
  | none => simp
  | some instr =>
    by_cases hc : (!pass.ignorePos instr.pos "zagane" &&
       !pass.ignorePos instr.pos "unstopiter" && unstop r f b i) = true
    · simp only [hc, if_true, List.mem_singleton, Option.some.injEq, exists_eq_left']
      simp only [Bool.and_eq_true, Bool.not_eq_true'] at hc
      simp [hc.1.1, hc.1.2, hc.2]
    · simp only [hc, Bool.false_eq_true, if_false, List.not_mem_nil, Option.some.injEq,
        exists_eq_left', false_iff]
      simp only [Bool.and_eq_true, Bool.not_eq_true'] at hc
      intro hcon
      exact hc ⟨⟨hcon.1, hcon.2.1⟩, hcon.2.2.1⟩

theorem mem_scan (r : runner) (pass : Pass) (d : Diagnostic) :
    d ∈ scan r pass ↔
      ∃ f ∈ pass.funcs, ∃ b i, d ∈ reportAt r pass f b i := by
  unfold scan
  simp only [List.mem_flatMap, List.mem_range]
  constructor
  · rintro ⟨f, hf, b, _, i, _, hd⟩
    exact ⟨f, hf, b, i, hd⟩
  · rintro ⟨f, hf, b, i, hd⟩
    obtain ⟨instr, hget, -⟩ := (mem_reportAt r pass f b i d).mp hd
    have hi : i < (f.block b).instrs.length := by
      rw [List.get?_eq_some] at hget
      exact hget.1
    have hb : b < f.blocks.length := by
      by_contra hge
      have : f.block b = ⟨[], []⟩ := by
        unfold Function.block
        exact List.getD_eq_default _ _ (not_lt.mp hge)
      rw [this] at hi
      simp at hi
    exact ⟨f, hf, b, hb, i, hi, hd⟩

/-- What `run` returns once the library object is found and no error is raised. -/
theorem run_diags (r0 : runner) (pass : Pass)
    (hlib : lookupFromImports pass.imports spannerPath "RowIterator" ≠ none)
    (herr : (run r0 pass).err = none) :
    (run r0 pass).diags = scan (run r0 pass).r pass := by
  unfold run at herr ⊢
  cases hl : lookupFromImports pass.imports spannerPath "RowIterator" with
  | none => exact absurd hl hlib
  | some obj =>
    simp only [hl] at herr ⊢
    cases ht : obj.typ with
    | named pkg name =>
      simp only [ht] at herr ⊢
      cases hs : findStop obj.methods r0.stopMthd with
      | none => simp only [hs] at herr; simp at herr
      | some m => simp only [hs]
    | pointer e => simp only [ht] at herr; simp at herr
    | basic n => simp only [ht] at herr; simp at herr

/-- Blocks reachable from `B` through at least one edge lie in any list that is closed
under the successors of `B` and of its own members. -/
theorem transGen_mem_of_closed (f : Function) (B : Nat) (S : List Nat)
    (h : ∀ a ∈ B :: S, ∀ b ∈ (f.block a).succs, b ∈ S) :
    ∀ s, Relation.TransGen (Edge f) B s → s ∈ S := by
  intro s hs
  induction hs with
  | single hab => exact h B (List.mem_cons_self _ _) _ hab
  | tail _ hbc ih => exact h _ (List.mem_cons_of_mem _ ih) _ hbc

/-- C2. Leak soundness: for a producing call `P` of the iterator pointer type at
`B.Instrs[i]`, if neither `B.Instrs[i:]` nor any block reachable from `B` contains a
release of `P`, and no reachable terminal block (`B` included) ends in a return listing
`P`, then `unstop` answers `true`; and a run that resolved the library to this runner
and has no suppression for either tag at the position of `P` reports a diagnostic there.
Nothing is assumed about terminal blocks being reachable. -/
theorem leak_soundness (r : runner) (f : Function) (B i : Nat) (id : Value) (typ : Typ)
    (c : CallCommon) (pos : Pos)
    (hP : (f.block B).instrs.get? i = some (.call id typ c pos))
    (hT : r.iterTyp = some typ)
    (htail : ¬ HasRelease r ((f.block B).instrs.drop i) id)
    (hrel : ∀ s, Relation.TransGen (Edge f) B s → ¬ HasRelease r (f.block s).instrs id)
    (hret : ∀ t, Relation.ReflTransGen (Edge f) B t → Terminal f t →
      ¬ ReturnsValue (f.block t).instrs id) :
    unstop r f B i = true ∧
      ∀ (r0 : runner) (pass : Pass), f ∈ pass.funcs →
        lookupFromImports pass.imports spannerPath "RowIterator" ≠ none →
        (run r0 pass).err = none → (run r0 pass).r = r →
        pass.ignorePos pos "zagane" = false → pass.ignorePos pos "unstopiter" = false →
        (pos, "iterator must be stop") ∈ (run r0 pass).diags := by
  have hun : unstop r f B i = true := by
    rw [unstop_producer r f B i id typ c pos hP hT]
    have h1 : callStopIn r ((f.block B).instrs.drop i) id = false := by
      rw [Bool.eq_false_iff]
      exact fun hc => htail ((callStopIn_iff _ _ _).mp hc)
    have h2 : (callStopInSuccs r f B id []).1 = false := by
      refine callStopInSuccsFuel_false_of_leak r f id _ B [] _ ?_ ?_
        (callStopInSuccs_spec r f id B [])
      · intro c s hc hcs
        rw [Bool.eq_false_iff]
        exact fun hrl => hrel s (Relation.TransGen.tail' hc hcs)
          ((callStopIn_iff _ _ _).mp hrl)
      · intro t ht hterm
        rw [Bool.eq_false_iff]
        exact fun hrt => hret t ht hterm ((isReturnIter_iff _ _).mp hrt)
    rw [h1, h2]
    rfl
  refine ⟨hun, ?_⟩
  intro r0 pass hf hlib herr hr hz hu
  rw [run_diags r0 pass hlib herr, hr, mem_scan]
  refine ⟨f, hf, B, i, ?_⟩
  rw [mem_reportAt]
  exact ⟨_, hP, hz, hu, hun, rfl⟩

/-- Instance of C2 on a producer followed by an endless loop: no terminal block is
reachable and the producer is reported. -/
theorem leak_soundness_witness :
    (exForever.block 0).instrs.get? 0 = some (.call 1 exIterTyp ⟨some exQuery, []⟩ 10) ∧
    exRunner.iterTyp = some exIterTyp ∧
    ¬ HasRelease exRunner ((exForever.block 0).instrs.drop 0) 1 ∧
    (∀ s, Relation.TransGen (Edge exForever) 0 s →
      ¬ HasRelease exRunner (exForever.block s).instrs 1) ∧
    (∀ t, Relation.ReflTransGen (Edge exForever) 0 t → Terminal exForever t →
      ¬ ReturnsValue (exForever.block t).instrs 1) ∧
    unstop exRunner exForever 0 0 = true ∧
    (10, "iterator must be stop") ∈ (run newRunner (exPass [exForever])).diags := by
  have htail : ¬ HasRelease exRunner ((exForever.block 0).instrs.drop 0) 1 := by
    rw [← callStopIn_iff]; decide
  have hreach : ∀ s, Relation.TransGen (Edge exForever) 0 s → s ∈ [1] :=
    transGen_mem_of_closed exForever 0 [1] (by decide)
  have hrel : ∀ s, Relation.TransGen (Edge exForever) 0 s →
      ¬ HasRelease exRunner (exForever.block s).instrs 1 := by
    intro s hs
    have h1 : s = 1 := by simpa using hreach s hs
    subst h1
    rw [← callStopIn_iff]; decide
  have hret : ∀ t, Relation.ReflTransGen (Edge exForever) 0 t → Terminal exForever t →
      ¬ ReturnsValue (exForever.block t).instrs 1 := by
    intro t ht hterm
    rcases Relation.reflTransGen_iff_eq_or_transGen.mp ht with h0 | htg
    · subst h0; exact absurd hterm (by unfold Terminal; decide)
    · have h1 : t = 1 := by simpa using hreach t htg
      subst h1; exact absurd hterm (by unfold Terminal; decide)
  have h := leak_soundness exRunner exForever 0 0 1 exIterTyp ⟨some exQuery, []⟩ 10
    (by decide) (by decide) htail hrel hret
  exact ⟨by decide, by decide, htail, hrel, hret, h.1,
    h.2 newRunner (exPass [exForever]) (by decide) (by decide) (by decide) (by decide)
      (by decide) (by decide)⟩

theorem getLastD_mem_cons (s : Nat) (rest : List Nat) : rest.getLastD s ∈ s :: rest := by
  induction rest generalizing s with
  | nil => simp
  | cons t ts ih =>
    have := ih t
    simp only [List.getLastD_cons]
    exact List.mem_cons_of_mem _ this

/-- The end of a path is a terminal block reachable from its start. -/
theorem IsPath_end (f : Function) :
    ∀ (path : List Nat) (b : Nat), IsPath f b path →
      Relation.ReflTransGen (Edge f) b (path.getLastD b) ∧ Terminal f (path.getLastD b) := by
  intro path
  induction path with
  | nil => intro b h; exact ⟨Relation.ReflTransGen.refl, h⟩
  | cons s rest ih =>
    intro b h
    obtain ⟨h1, h2⟩ := ih s h.2
    simp only [List.getLastD_cons]
    exact ⟨Relation.ReflTransGen.head h.1 h1, h2⟩

/-- A non-empty path ends in one of its own blocks, reached through at least one edge. -/
theorem IsPath_end_cons (f : Function) (b s : Nat) (rest : List Nat)
    (h : IsPath f b (s :: rest)) :
    (s :: rest).getLastD b ∈ s :: rest ∧
      Relation.TransGen (Edge f) b ((s :: rest).getLastD b) ∧
      Terminal f ((s :: rest).getLastD b) := by
  obtain ⟨h1, h2⟩ := IsPath_end f rest s h.2
  simp only [List.getLastD_cons]
  exact ⟨getLastD_mem_cons s rest, Relation.TransGen.head' h.1 h1, h2⟩

/-- C3, as stated, fails on the diamond followed by the release: every path from the
producer to the terminal block contains the release of `P`, yet `unstop` answers `true`
and the diagnostic is reported, because the join block is met a second time. -/
theorem full_release_diamond_reported :
    (exDiamond.block 0).instrs.get? 0 = some (.call 1 exIterTyp ⟨some exQuery, []⟩ 10) ∧
    exRunner.iterTyp = some exIterTyp ∧
    (∀ path, IsPath exDiamond 0 path →
      ∃ s ∈ path, HasRelease exRunner (exDiamond.block s).instrs 1) ∧
    unstop exRunner exDiamond 0 0 = true ∧
    (run newRunner (exPass [exDiamond])).diags = [(10, "iterator must be stop")] := by
  refine ⟨by decide, by decide, ?_, by decide, by decide⟩
  intro path hp
  cases path with
  | nil => exact absurd hp (by unfold IsPath Terminal; decide)
  | cons s rest =>
    obtain ⟨hmem, hreach, hterm⟩ := IsPath_end_cons exDiamond 0 s rest hp
    have hin := transGen_mem_of_closed exDiamond 0 [1, 2, 3, 4] (by decide) _ hreach
    refine ⟨_, hmem, ?_⟩
    generalize (s :: rest).getLastD 0 = t at hin hterm
    simp only [List.mem_cons, List.mem_singleton, List.not_mem_nil, or_false] at hin
    rcases hin with rfl | rfl | rfl | rfl
    · exact absurd hterm (by unfold Terminal; decide)
    · exact absurd hterm (by unfold Terminal; decide)
    · exact absurd hterm (by unfold Terminal; decide)
    · rw [← callStopIn_iff]; decide

/-- No diagnostic is reported at an instruction for which `unstop` answers `false`. -/
theorem reportAt_nil_of_unstop_false (r : runner) (pass : Pass) (f : Function) (b i : Nat)
    (h : unstop r f b i = false) : reportAt r pass f b i = [] := by
  unfold reportAt
  cases (f.block b).instrs.get? i with
  | none => rfl
  | some instr => simp [h]

/-- Acceptance of a producer in a region the walk enters without meeting a block twice,
when every path to a terminal block is covered. -/
theorem unstop_false_of_tree (r : runner) (f : Function) (B i : Nat) (id : Value) (typ : Typ)
    (c : CallCommon) (pos : Pos) (fuel : Nat) (l : List Nat)
    (hP : (f.block B).instrs.get? i = some (.call id typ c pos))
    (hT : r.iterTyp = some typ)
    (hent : entered r f id fuel B = some l) (hnd : l.Nodup)
    (hpaths : ∀ path, IsPath f B path → PathOK r f id B path) :
    unstop r f B i = false := by
  rw [unstop_producer r f B i id typ c pos hP hT]
  obtain ⟨d', h', _⟩ := callStopInSuccsFuel_tree r f id fuel B l [] hent hnd
    (fun x _ hx => by simp at hx) hpaths
  rw [callStopInSuccs_eq_of_fuel r f id fuel B [] _ h']
  simp

/-- C3, amended. Full-release acceptance where the walk meets no block twice: let the
blocks entered from `B` (a successor that itself contains a release of `P` is not
entered) each be entered along one path only, so that no join and no cycle is met.  If
every path from `P` to a terminal block contains a release of `P`, in `B.Instrs[i:]` or
in a later block of the path, then `unstop` answers `false` and no diagnostic is
reported for `P`. -/
theorem full_release_accepted (r : runner) (f : Function) (B i : Nat) (id : Value)
    (typ : Typ) (c : CallCommon) (pos : Pos) (fuel : Nat) (l : List Nat)
    (hP : (f.block B).instrs.get? i = some (.call id typ c pos))
    (hT : r.iterTyp = some typ)
    (hent : entered r f id fuel B = some l) (hnd : l.Nodup)
    (hpaths : ∀ path, IsPath f B path →
      HasRelease r ((f.block B).instrs.drop i) id ∨
        ∃ s ∈ path, HasRelease r (f.block s).instrs id) :
    unstop r f B i = false ∧ ∀ pass : Pass, reportAt r pass f B i = [] := by
  have hun : unstop r f B i = false := by
    by_cases htail : HasRelease r ((f.block B).instrs.drop i) id
    · rw [unstop_producer r f B i id typ c pos hP hT, (callStopIn_iff _ _ _).mpr htail]
      rfl
    · refine unstop_false_of_tree r f B i id typ c pos fuel l hP hT hent hnd ?_
      intro path hp
      rcases hpaths path hp with h | h
      · exact absurd h htail
      · exact Or.inl h
  exact ⟨hun, fun pass => reportAt_nil_of_unstop_false r pass f B i hun⟩

/-- Instance of the amended C3 on the if/else whose join block releases the iterator:
the walk enters blocks 0, 1 and 2, each once. -/
theorem full_release_accepted_witness :
    (exJoinRelease.block 0).instrs.get? 0 = some (.call 1 exIterTyp ⟨some exQuery, []⟩ 10) ∧
    exRunner.iterTyp = some exIterTyp ∧
    entered exRunner exJoinRelease 1 4 0 = some [0, 1, 2] ∧ [0, 1, 2].Nodup ∧
    (∀ path, IsPath exJoinRelease 0 path →
      HasRelease exRunner ((exJoinRelease.block 0).instrs.drop 0) 1 ∨
        ∃ s ∈ path, HasRelease exRunner (exJoinRelease.block s).instrs 1) ∧
    unstop exRunner exJoinRelease 0 0 = false ∧
    ∀ pass : Pass, reportAt exRunner pass exJoinRelease 0 0 = [] := by
  have hpaths : ∀ path, IsPath exJoinRelease 0 path →
      HasRelease exRunner ((exJoinRelease.block 0).instrs.drop 0) 1 ∨
        ∃ s ∈ path, HasRelease exRunner (exJoinRelease.block s).instrs 1 := by
    intro path hp
    right
    cases path with
    | nil => exact absurd hp (by unfold IsPath Terminal; decide)
    | cons s rest =>
      obtain ⟨hmem, hreach, hterm⟩ := IsPath_end_cons exJoinRelease 0 s rest hp
      have hin := transGen_mem_of_closed exJoinRelease 0 [1, 2, 3] (by decide) _ hreach
      refine ⟨_, hmem, ?_⟩
      generalize (s :: rest).getLastD 0 = t at hin hterm
      simp only [List.mem_cons, List.mem_singleton, List.not_mem_nil, or_false] at hin
      rcases hin with rfl | rfl | rfl
      · exact absurd hterm (by unfold Terminal; decide)
      · exact absurd hterm (by unfold Terminal; decide)
      · rw [← callStopIn_iff]; decide
  exact ⟨by decide, by decide, by decide, by decide, hpaths,
    full_release_accepted exRunner exJoinRelease 0 0 1 exIterTyp ⟨some exQuery, []⟩ 10 4
      [0, 1, 2] (by decide) (by decide) (by decide) (by decide) hpaths⟩

/-- C4, as stated, fails on the diamond that returns the iterator: the only terminal
block reachable from the producer ends in `return P`, yet `unstop` answers `true` and the
diagnostic is reported, because the returning block is met a second time. -/
theorem return_escape_diamond_reported :
    (exDiamondReturn.block 0).instrs.get? 0 =
      some (.call 1 exIterTyp ⟨some exQuery, []⟩ 10) ∧
    exRunner.iterTyp = some exIterTyp ∧
    (∀ t, Relation.ReflTransGen (Edge exDiamondReturn) 0 t → Terminal exDiamondReturn t →
      ReturnsValue (exDiamondReturn.block t).instrs 1) ∧
    unstop exRunner exDiamondReturn 0 0 = true ∧
    (run newRunner (exPass [exDiamondReturn])).diags = [(10, "iterator must be stop")] := by
  refine ⟨by decide, by decide, ?_, by decide, by decide⟩
  intro t ht hterm
  rcases Relation.reflTransGen_iff_eq_or_transGen.mp ht with h0 | htg
  · subst h0; exact absurd hterm (by unfold Terminal; decide)
  · have hin := transGen_mem_of_closed exDiamondReturn 0 [1, 2, 3] (by decide) _ htg
    simp only [List.mem_cons, List.mem_singleton, List.not_mem_nil, or_false] at hin
    rcases hin with rfl | rfl | rfl
    · exact absurd hterm (by unfold Terminal; decide)
    · exact absurd hterm (by unfold Terminal; decide)
    · rw [← isReturnIter_iff]; decide

/-- C4, amended. Return-escape acceptance where the walk meets no block twice: let the
blocks entered from `B` (a successor that itself contains a release of `P` is not
entered) each be entered along one path only, so that no join and no cycle is met.  If
every terminal block reachable from `B` has as its last instruction a return whose
results contain `P`, then `unstop` answers `false` and no diagnostic is reported for
`P`. -/
theorem return_escape_accepted (r : runner) (f : Function) (B i : Nat) (id : Value)
    (typ : Typ) (c : CallCommon) (pos : Pos) (fuel : Nat) (l : List Nat)
    (hP : (f.block B).instrs.get? i = some (.call id typ c pos))
    (hT : r.iterTyp = some typ)
    (hent : entered r f id fuel B = some l) (hnd : l.Nodup)
    (hret : ∀ t, Relation.ReflTransGen (Edge f) B t → Terminal f t →
      ReturnsValue (f.block t).instrs id) :
    unstop r f B i = false ∧ ∀ pass : Pass, reportAt r pass f B i = [] := by
  have hun : unstop r f B i = false := by
    refine unstop_false_of_tree r f B i id typ c pos fuel l hP hT hent hnd ?_
    intro path hp
    obtain ⟨h1, h2⟩ := IsPath_end f path B hp
    exact Or.inr (hret _ h1 h2)
  exact ⟨hun, fun pass => reportAt_nil_of_unstop_false r pass f B i hun⟩

/-- Instance of the amended C4 on the if/else whose two branches return the
iterator. -/
theorem return_escape_accepted_witness :
    (exBranchReturn.block 0).instrs.get? 0 =
      some (.call 1 exIterTyp ⟨some exQuery, []⟩ 10) ∧
    exRunner.iterTyp = some exIterTyp ∧
    entered exRunner exBranchReturn 1 3 0 = some [0, 1, 2] ∧ [0, 1, 2].Nodup ∧
    (∀ t, Relation.ReflTransGen (Edge exBranchReturn) 0 t → Terminal exBranchReturn t →
      ReturnsValue (exBranchReturn.block t).instrs 1) ∧
    unstop exRunner exBranchReturn 0 0 = false ∧
    ∀ pass : Pass, reportAt exRunner pass exBranchReturn 0 0 = [] := by
  have hret : ∀ t, Relation.ReflTransGen (Edge exBranchReturn) 0 t →
      Terminal exBranchReturn t → ReturnsValue (exBranchReturn.block t).instrs 1 := by
    intro t ht hterm
    rcases Relation.reflTransGen_iff_eq_or_transGen.mp ht with h0 | htg
    · subst h0; exact absurd hterm (by unfold Terminal; decide)
    · have hin := transGen_mem_of_closed exBranchReturn 0 [1, 2] (by decide) _ htg
      simp only [List.mem_cons, List.mem_singleton, List.not_mem_nil, or_false] at hin
      rcases hin with rfl | rfl
      · rw [← isReturnIter_iff]; decide
      · rw [← isReturnIter_iff]; decide
  exact ⟨by decide, by decide, by decide, by decide, hret,
    return_escape_accepted exRunner exBranchReturn 0 0 1 exIterTyp ⟨some exQuery, []⟩ 10 3
      [0, 1, 2] (by decide) (by decide) (by decide) (by decide) hret⟩

/-- C5. Identity sensitivity: in an instruction sequence where every call to the release
method has a first operand different from `P`, or no operand, `callStopIn` answers
`false` for `P`; and in `a := Query(); b := Query(); a.Stop(); return` the verdict of
`unstop` is `false` for `a` and `true` for `b`, the only diagnostic being the one at
`b`. -/
theorem identity_sensitivity (r : runner) (instrs : List Instruction) (P : Value)
    (h : ∀ instr ∈ instrs, ∀ c, instr.common? = some c →
      isStopCallee r c.staticCallee = true → c.args.head? ≠ some P) :
    callStopIn r instrs P = false ∧
      unstop exRunner exTwo 0 0 = false ∧ unstop exRunner exTwo 0 1 = true ∧
      (run newRunner (exPass [exTwo])).diags = [(11, "iterator must be stop")] := by
  refine ⟨?_, by decide, by decide, by decide⟩
  rw [Bool.eq_false_iff]
  intro hc
  obtain ⟨instr, hmem, c, hcom, hstop⟩ := (callStopIn_iff _ _ _).mp hc
  unfold isStopCall at hstop
  simp only [Bool.and_eq_true, beq_iff_eq] at hstop
  exact h instr hmem c hcom hstop.1.1 hstop.2

/-- Instance of C5 for the second producer of the two-producer function: the only
release in its tail has the first producer as operand. -/
theorem identity_sensitivity_witness :
    (∀ instr ∈ ((exTwo.block 0).instrs.drop 1), ∀ c, instr.common? = some c →
      isStopCallee exRunner c.staticCallee = true → c.args.head? ≠ some 2) ∧
    callStopIn exRunner ((exTwo.block 0).instrs.drop 1) 2 = false ∧
      unstop exRunner exTwo 0 0 = false ∧ unstop exRunner exTwo 0 1 = true ∧
      (run newRunner (exPass [exTwo])).diags = [(11, "iterator must be stop")] := by
  have h : ∀ instr ∈ ((exTwo.block 0).instrs.drop 1), ∀ c, instr.common? = some c →
      isStopCallee exRunner c.staticCallee = true → c.args.head? ≠ some 2 := by
    decide
  exact ⟨h, identity_sensitivity exRunner ((exTwo.block 0).instrs.drop 1) 2 h⟩

/-- C6, as stated, fails: on the loop scenario `unstop` does not answer `false` for the
producer. -/
theorem loop_scenario_not_accepted : ¬ (unstop exRunner exLoop 0 0 = false) := by
  decide

/-- C6, amended. Loop scenario: for `iter := Query(); for { if done { iter.Stop(); break };
step(iter) }` the walk from the body block meets the loop block a second time and rejects
that branch, so `unstop` answers `true` for the producer and the run reports exactly the
diagnostic at the position of the producer. -/
theorem loop_scenario_reported :
    (callStopInSuccs exRunner exLoop 3 1 [1, 0]).1 = false ∧
    unstop exRunner exLoop 0 0 = true ∧
    run newRunner (exPass [exLoop]) = ⟨exRunner, [(10, "iterator must be stop")], none⟩ := by
  decide

/-- The runner and the error of `run` do not depend on the functions nor on the
suppression predicate. -/
theorem run_resolution_congr (r0 : runner) (pass pass' : Pass)
    (h : pass'.imports = pass.imports) :
    (run r0 pass').r = (run r0 pass).r ∧ (run r0 pass').err = (run r0 pass).err := by
  unfold run
  rw [h]
  cases lookupFromImports pass.imports spannerPath "RowIterator" with
  | none => exact ⟨rfl, rfl⟩
  | some obj =>
    simp only
    cases obj.typ with
    | named pkg name =>
      simp only
      cases findStop obj.methods r0.stopMthd with
      | none => exact ⟨rfl, rfl⟩
      | some m => exact ⟨rfl, rfl⟩
    | pointer e => exact ⟨rfl, rfl⟩
    | basic n => exact ⟨rfl, rfl⟩

theorem reportAt_suppress (r : runner) (pass : Pass) (ig : Pos → String → Bool) (p : Pos)
    (hsame : ∀ q tag, q ≠ p → ig q tag = pass.ignorePos q tag)
    (hp : ig p "zagane" = true ∨ ig p "unstopiter" = true) (f : Function) (b i : Nat) :
    reportAt r ⟨pass.imports, pass.funcs, ig⟩ f b i =
      (reportAt r pass f b i).filter (fun d => d.1 != p) := by
  unfold reportAt
  cases (f.block b).instrs.get? i with
  | none => rfl
  | some instr =>
    simp only
    by_cases hpos : instr.pos = p
    · have hl : (!ig instr.pos "zagane" && !ig instr.pos "unstopiter" && unstop r f b i)
          = false := by
        rw [hpos]
        rcases hp with h | h <;> simp [h]
      simp only [hl, Bool.false_eq_true, if_false]
      by_cases hc : (!pass.ignorePos instr.pos "zagane" &&
          !pass.ignorePos instr.pos "unstopiter" && unstop r f b i) = true
      · simp only [hc, if_true]
        simp [List.filter, hpos]
      · simp only [hc, if_false]
        rfl
    · simp only [hsame _ "zagane" hpos, hsame _ "unstopiter" hpos]
      by_cases hc : (!pass.ignorePos instr.pos "zagane" &&
          !pass.ignorePos instr.pos "unstopiter" && unstop r f b i) = true
      · simp only [hc, if_true]
        have hne : (instr.pos != p) = true := by simpa using hpos
        simp [List.filter, hne]
      · simp only [hc, if_false]
        rfl

theorem scan_suppress (r : runner) (pass : Pass) (ig : Pos → String → Bool) (p : Pos)
    (hsame : ∀ q tag, q ≠ p → ig q tag = pass.ignorePos q tag)
    (hp : ig p "zagane" = true ∨ ig p "unstopiter" = true) :
    scan r ⟨pass.imports, pass.funcs, ig⟩ = (scan r pass).filter (fun d => d.1 != p) := by
  unfold scan
  simp only [List.filter_flatMap, reportAt_suppress r pass ig p hsame hp]

/-- C7. Suppression: once the library is resolved, the diagnostics of `run` are exactly
the positions of the instructions `(b, i)` for which `unstop` answers `true` and the
suppression predicate is `false` for both tags `zagane` and `unstopiter`, each with the
message `iterator must be stop`; and making the predicate true for either tag at a
position `p`, leaving it unchanged elsewhere, removes the diagnostics at `p` and leaves
all others as they were. -/
theorem suppression_exact (r0 : runner) (pass : Pass)
    (hlib : lookupFromImports pass.imports spannerPath "RowIterator" ≠ none)
    (herr : (run r0 pass).err = none) :
    (∀ d : Diagnostic, d ∈ (run r0 pass).diags ↔
      ∃ f ∈ pass.funcs, ∃ b i instr, (f.block b).instrs.get? i = some instr ∧
        unstop (run r0 pass).r f b i = true ∧
        pass.ignorePos instr.pos "zagane" = false ∧
        pass.ignorePos instr.pos "unstopiter" = false ∧
        d = (instr.pos, "iterator must be stop")) ∧
    (∀ (ig : Pos → String → Bool) (p : Pos),
      (∀ q tag, q ≠ p → ig q tag = pass.ignorePos q tag) →
      (ig p "zagane" = true ∨ ig p "unstopiter" = true) →
      (run r0 ⟨pass.imports, pass.funcs, ig⟩).diags =
        (run r0 pass).diags.filter (fun d => d.1 != p)) := by
  constructor
  · intro d
    rw [run_diags r0 pass hlib herr, mem_scan]
    constructor
    · rintro ⟨f, hf, b, i, hd⟩
      obtain ⟨instr, h1, h2, h3, h4, h5⟩ := (mem_reportAt _ _ _ _ _ _).mp hd
      exact ⟨f, hf, b, i, instr, h1, h4, h2, h3, h5⟩
    · rintro ⟨f, hf, b, i, instr, h1, h4, h2, h3, h5⟩
      exact ⟨f, hf, b, i, (mem_reportAt _ _ _ _ _ _).mpr ⟨instr, h1, h2, h3, h4, h5⟩⟩
  · intro ig p hsame hp
    obtain ⟨hr, he⟩ := run_resolution_congr r0 pass ⟨pass.imports, pass.funcs, ig⟩ rfl
    rw [run_diags r0 ⟨pass.imports, pass.funcs, ig⟩ hlib (by rw [he]; exact herr),
      run_diags r0 pass hlib herr, hr]
    exact scan_suppress _ pass ig p hsame hp

/-- Instance of C7 on a function with two leaks: both are reported, and suppressing
position 10 leaves the report at position 11. -/
theorem suppression_exact_witness :
    lookupFromImports (exPass [exTwoLeaks]).imports spannerPath "RowIterator" ≠ none ∧
    (run newRunner (exPass [exTwoLeaks])).err = none ∧
    (run newRunner (exPass [exTwoLeaks])).diags =
      [(10, "iterator must be stop"), (11, "iterator must be stop")] ∧
    (run newRunner (exPassIgnoring [exTwoLeaks] [10])).diags =
      [(11, "iterator must be stop")] ∧
    ((∀ d : Diagnostic, d ∈ (run newRunner (exPass [exTwoLeaks])).diags ↔
      ∃ f ∈ (exPass [exTwoLeaks]).funcs, ∃ b i instr,
        (f.block b).instrs.get? i = some instr ∧
        unstop (run newRunner (exPass [exTwoLeaks])).r f b i = true ∧
        (exPass [exTwoLeaks]).ignorePos instr.pos "zagane" = false ∧
        (exPass [exTwoLeaks]).ignorePos instr.pos "unstopiter" = false ∧
        d = (instr.pos, "iterator must be stop")) ∧
    (∀ (ig : Pos → String → Bool) (p : Pos),
      (∀ q tag, q ≠ p → ig q tag = (exPass [exTwoLeaks]).ignorePos q tag) →
      (ig p "zagane" = true ∨ ig p "unstopiter" = true) →
      (run newRunner ⟨(exPass [exTwoLeaks]).imports, (exPass [exTwoLeaks]).funcs, ig⟩).diags =
        (run newRunner (exPass [exTwoLeaks])).diags.filter (fun d => d.1 != p))) :=
  ⟨by decide, by decide, by decide, by decide,
    suppression_exact newRunner (exPass [exTwoLeaks]) (by decide) (by decide)⟩

theorem lookupFromImports_none_of_absent (imports : List Package) (path name : String)
    (h : ∀ p ∈ imports, p.path ≠ path) : lookupFromImports imports path name = none := by
  unfold lookupFromImports
  have : imports.find? (fun p => p.path == path) = none := by
    rw [List.find?_eq_none]
    intro p hp
    simpa using h p hp
  rw [this]

/-- C8. Library-absence short-circuit: when no imported package has the path
`cloud.google.com/go/spanner`, `run` returns a nil error and reports no diagnostic,
whatever the functions are. -/
theorem library_absent_short_circuit (r0 : runner) (pass : Pass)
    (h : ∀ p ∈ pass.imports, p.path ≠ "cloud.google.com/go/spanner") :
    (run r0 pass).err = none ∧ (run r0 pass).diags = [] := by
  unfold run
  rw [lookupFromImports_none_of_absent pass.imports spannerPath "RowIterator" h]
  exact ⟨rfl, rfl⟩

/-- Instance of C8 on a package that imports only `fmt` and leaks two iterators. -/
theorem library_absent_short_circuit_witness :
    (∀ p ∈ (exPassNoLibrary [exTwoLeaks]).imports, p.path ≠ "cloud.google.com/go/spanner") ∧
    (run newRunner (exPassNoLibrary [exTwoLeaks])).err = none ∧
    (run newRunner (exPassNoLibrary [exTwoLeaks])).diags = [] :=
  ⟨by decide, library_absent_short_circuit newRunner (exPassNoLibrary [exTwoLeaks]) (by decide)⟩

/-- C9 on the code: with the library imported but no object `RowIterator` in its scope,
`run` returns a nil error and no diagnostic, although the function leaks two iterators;
no error naming the missing type is raised. -/
theorem missing_iterator_type_is_skipped :
    lookupFromImports (exPassNoIterator [exTwoLeaks]).imports spannerPath "RowIterator"
      = none ∧
    (∃ p ∈ (exPassNoIterator [exTwoLeaks]).imports, p.path = spannerPath) ∧
    (run newRunner (exPassNoIterator [exTwoLeaks])).err = none ∧
    (run newRunner (exPassNoIterator [exTwoLeaks])).diags = [] := by
  decide

theorem findStop_append (methods : List Func) (m : Func) (cur : Option Func) :
    findStop (methods ++ [m]) cur =
      if m.id == "Stop" then some m else findStop methods cur := by
  unfold findStop
  rw [List.foldl_append]
  rfl

theorem findStop_none (methods : List Func) (h : ∀ m ∈ methods, m.id ≠ "Stop") (cur : Option Func) :
    findStop methods cur = cur := by
  induction methods using List.reverseRecOn with
  | nil => rfl
  | append_singleton ms m ih =>
    rw [findStop_append]
    have hm : (m.id == "Stop") = false := by
      simpa using h m (List.mem_append_right _ (List.mem_singleton_self m))
    rw [hm]
    exact ih (fun x hx => h x (List.mem_append_left _ hx))

theorem findStop_unique (methods : List Func) (m : Func) (cur : Option Func)
    (hm : m ∈ methods) (hid : m.id = "Stop")
    (huniq : ∀ x ∈ methods, x.id = "Stop" → x = m) :
    findStop methods cur = some m := by
  induction methods using List.reverseRecOn with
  | nil => simp at hm
  | append_singleton ms x ih =>
    rw [findStop_append]
    by_cases hx : x.id = "Stop"
    · have := huniq x (List.mem_append_right _ (List.mem_singleton_self x)) hx
      subst this
      simp [hx]
    · have hx' : (x.id == "Stop") = false := by simpa using hx
      rw [hx']
      simp only [Bool.false_eq_true, if_false]
      rcases List.mem_append.mp hm with h1 | h1
      · exact ih h1 (fun y hy => huniq y (List.mem_append_left _ hy))
      · simp only [List.mem_singleton] at h1
        subst h1
        exact absurd hid hx

/-- Resolution of the release method when `RowIterator` resolves to a named type: (1) on
a runner that has no release method recorded, as the analyzer creates it, if no method of
the type has identifier `Stop`, `run` returns the error
`cannot find spanner.RowIterator.Stop` and reports no diagnostic, whatever the functions
are; and (2) if the method `m` of the type is the one with identifier `Stop`, `run`
raises no error and records `m` as the release method. -/
theorem missing_release_method (r0 : runner) (pass : Pass) (obj : Object) (pkg name : String)
    (hlib : lookupFromImports pass.imports spannerPath "RowIterator" = some obj)
    (htyp : obj.typ = .named pkg name) :
    (r0.stopMthd = none → (∀ m ∈ obj.methods, m.id ≠ "Stop") →
      (run r0 pass).err = some "cannot find spanner.RowIterator.Stop" ∧
        (run r0 pass).diags = []) ∧
    (∀ m ∈ obj.methods, m.id = "Stop" → (∀ x ∈ obj.methods, x.id = "Stop" → x = m) →
      (run r0 pass).err = none ∧ (run r0 pass).r.stopMthd = some m) := by
  constructor
  · intro hfresh hno
    have hf : findStop obj.methods r0.stopMthd = none := by
      rw [findStop_none obj.methods hno, hfresh]
    simp [run, hlib, htyp, hf]
  · intro m hm hid huniq
    have hf : findStop obj.methods r0.stopMthd = some m :=
      findStop_unique obj.methods m _ hm hid huniq
    simp [run, hlib, htyp, hf]

/-- Instance of the resolution of the release method on a new runner: a `RowIterator`
with the method `Next` only fails the run, the one with `Stop` is resolved to that
method. -/
theorem missing_release_method_witness :
    (newRunner.stopMthd = none ∧
      (∀ m ∈ [(⟨"Next", ⟨[], [.basic "error"], false⟩⟩ : Func)], m.id ≠ "Stop") ∧
      (run newRunner (exPassNoStop [exTwoLeaks])).err
        = some "cannot find spanner.RowIterator.Stop" ∧
      (run newRunner (exPassNoStop [exTwoLeaks])).diags = []) ∧
    ((⟨"Stop", exStopSig⟩ : Func) ∈ exIterObj.methods ∧
      (∀ x ∈ exIterObj.methods, x.id = "Stop" → x = ⟨"Stop", exStopSig⟩) ∧
      (run newRunner (exPass [exTwoLeaks])).err = none ∧
      (run newRunner (exPass [exTwoLeaks])).r.stopMthd = some ⟨"Stop", exStopSig⟩) :=
  ⟨⟨by decide, by decide,
      (missing_release_method newRunner (exPassNoStop [exTwoLeaks])
        ⟨"RowIterator", exIterNamed, [⟨"Next", ⟨[], [.basic "error"], false⟩⟩]⟩
        spannerPath "RowIterator" (by decide) (by decide)).1 (by decide) (by decide)⟩,
    ⟨by decide, by decide,
      (missing_release_method newRunner (exPass [exTwoLeaks]) exIterObj
        spannerPath "RowIterator" (by decide) (by decide)).2 ⟨"Stop", exStopSig⟩
        (by decide) (by decide) (by decide)⟩⟩

/-- The release method recorded by an earlier run stays recorded: `run` assigns
`stopMthd` only when it finds a method `Stop`, so a runner that already has one passes
the nil check even when the type at hand has no such method. -/
theorem run_keeps_recorded_release_method :
    (run exRunner (exPassNoStop [exTwoLeaks])).err = none ∧
    (run exRunner (exPassNoStop [exTwoLeaks])).r.stopMthd = some ⟨"Stop", exStopSig⟩ := by
  decide

/-- A path that ends in `t` passes through `u` when `u` is the only predecessor of `t`. -/
theorem IsPath_through (f : Function) (t u : Nat) (hpred : ∀ a, Edge f a t → a = u) :
    ∀ (path : List Nat) (b : Nat), IsPath f b path → path.getLastD b = t → b ≠ t →
      b = u ∨ u ∈ path := by
  intro path
  induction path with
  | nil => intro b _ hl hne; exact absurd hl hne
  | cons s rest ih =>
    intro b hp hl hne
    simp only [List.getLastD_cons] at hl
    by_cases hst : s = t
    · subst hst
      exact Or.inl (hpred b hp.1)
    · rcases ih s hp.2 hl hst with h | h
      · exact Or.inr (h ▸ List.mem_cons_self _ _)
      · exact Or.inr (List.mem_cons_of_mem _ h)

/-- The loop scenario also has a release of `P` on every path from the producer to the
terminal block, and the producer is reported: full release is not accepted across a
cycle. -/
theorem full_release_loop_reported :
    (∀ path, IsPath exLoop 0 path →
      ∃ s ∈ path, HasRelease exRunner (exLoop.block s).instrs 1) ∧
    unstop exRunner exLoop 0 0 = true := by
  refine ⟨?_, by decide⟩
  intro path hp
  have hpred : ∀ a, Edge exLoop a 4 → a = 2 := by
    intro a ha
    by_cases hlt : a < 5
    · unfold Edge at ha
      interval_cases a
      · exact absurd ha (by decide)
      · exact absurd ha (by decide)
      · rfl
      · exact absurd ha (by decide)
      · exact absurd ha (by decide)
    · unfold Edge at ha
      rw [block_succs_of_ge exLoop a (by simpa [exLoop] using not_lt.mp hlt)] at ha
      simp at ha
  cases path with
  | nil => exact absurd hp (by unfold IsPath Terminal; decide)
  | cons s rest =>
    obtain ⟨_, hreach, hterm⟩ := IsPath_end_cons exLoop 0 s rest hp
    have hin := transGen_mem_of_closed exLoop 0 [1, 2, 3, 4] (by decide) _ hreach
    have hlast : (s :: rest).getLastD 0 = 4 := by
      generalize (s :: rest).getLastD 0 = t at hin hterm
      simp only [List.mem_cons, List.mem_singleton, List.not_mem_nil, or_false] at hin
      rcases hin with rfl | rfl | rfl | rfl
      · exact absurd hterm (by unfold Terminal; decide)
      · exact absurd hterm (by unfold Terminal; decide)
      · exact absurd hterm (by unfold Terminal; decide)
      · rfl
    rcases IsPath_through exLoop 4 2 hpred (s :: rest) 0 hp hlast (by decide) with h | h
    · exact absurd h (by decide)
    · exact ⟨2, h, by rw [← callStopIn_iff]; decide⟩

/-- In the loop whose only exit returns the iterator, every reachable terminal block ends
in `return P`, and the producer is reported: return-escape is not accepted across a
cycle. -/
theorem return_escape_loop_reported :
    (∀ t, Relation.ReflTransGen (Edge exLoopReturn) 0 t → Terminal exLoopReturn t →
      ReturnsValue (exLoopReturn.block t).instrs 1) ∧
    unstop exRunner exLoopReturn 0 0 = true := by
  refine ⟨?_, by decide⟩
  intro t ht hterm
  rcases Relation.reflTransGen_iff_eq_or_transGen.mp ht with h0 | htg
  · subst h0; exact absurd hterm (by unfold Terminal; decide)
  · have hin := transGen_mem_of_closed exLoopReturn 0 [1, 2, 3] (by decide) _ htg
    simp only [List.mem_cons, List.mem_singleton, List.not_mem_nil, or_false] at hin
    rcases hin with rfl | rfl | rfl
    · exact absurd hterm (by unfold Terminal; decide)
    · rw [← isReturnIter_iff]; decide
    · exact absurd hterm (by unfold Terminal; decide)

/-- C11. Only call instructions of the iterator pointer type are producers: when
`b.Instrs[i]` is not an `*ssa.Call` whose type is identical to the resolved
pointer-to-iterator type (a phi, load, `go` or `defer`, or a call of another type),
`unstop` answers `false` and no diagnostic is reported at it. -/
theorem only_calls_produce (r : runner) (f : Function) (b i : Nat)
    (h : ∀ id typ c pos, (f.block b).instrs.get? i = some (.call id typ c pos) →
      r.iterTyp ≠ some typ) :
    unstop r f b i = false ∧ ∀ pass : Pass, reportAt r pass f b i = [] := by
  have hun : unstop r f b i = false := by
    unfold unstop
    cases hget : (f.block b).instrs.get? i with
    | none => rfl
    | some instr =>
      cases instr with
      | call id typ c pos =>
        simp only
        rw [if_pos (h id typ c pos hget)]
      | _ => rfl
  exact ⟨hun, fun pass => reportAt_nil_of_unstop_false r pass f b i hun⟩

/-- Instance of C11 on the phi of the iterator pointer type; the `go`, the `defer` and the
call of another type in the same block are not producers either. -/
theorem only_calls_produce_witness :
    (∀ id typ c pos, (exNonProducers.block 0).instrs.get? 0 = some (.call id typ c pos) →
      exRunner.iterTyp ≠ some typ) ∧
    (unstop exRunner exNonProducers 0 0 = false ∧
      ∀ pass : Pass, reportAt exRunner pass exNonProducers 0 0 = []) ∧
    unstop exRunner exNonProducers 0 1 = false ∧
    unstop exRunner exNonProducers 0 2 = false ∧
    unstop exRunner exNonProducers 0 3 = false ∧
    (run newRunner (exPass [exNonProducers])).diags = [] := by
  have h : ∀ id typ c pos,
      (exNonProducers.block 0).instrs.get? 0 = some (.call id typ c pos) →
      exRunner.iterTyp ≠ some typ := by
    intro id typ c pos hget
    exact absurd hget (by simp [exNonProducers, Function.block])
  exact ⟨h, only_calls_produce exRunner exNonProducers 0 0 h, by decide, by decide, by decide,
    by decide⟩

theorem mem_drop_iff (instrs : List Instruction) (i : Nat) (instr : Instruction) :
    instr ∈ instrs.drop i ↔ ∃ j, i ≤ j ∧ instrs.get? j = some instr := by
  constructor
  · intro h
    obtain ⟨n, hn⟩ := List.get?_of_mem h
    rw [List.get?_eq_getElem?, List.getElem?_drop, ← List.get?_eq_getElem?] at hn
    exact ⟨i + n, Nat.le_add_right _ _, hn⟩
  · rintro ⟨j, hij, hj⟩
    have : (instrs.drop i).get? (j - i) = some instr := by
      rw [List.get?_eq_getElem?, List.getElem?_drop, ← List.get?_eq_getElem?,
        Nat.add_sub_cancel' hij]
      exact hj
    exact List.get?_mem this

/-- C13. Decomposition of the verdict: for a call `P` of the iterator pointer type at
`B.Instrs[i]`, `unstop` answers `true` iff neither `callStopIn(B.Instrs[i:], P)` nor
`callStopInSuccs(B, P, {})` holds; the tail scan finds a release exactly when an
instruction at an index `j >= i` of the block is one (instructions before `i` are not
looked at); in particular a release of `P`, deferred or not, at or after index `i` in the
block of `P` yields no diagnostic whatever the rest of the graph is. -/
theorem verdict_decomposition (r : runner) (f : Function) (B i : Nat) (id : Value)
    (typ : Typ) (c : CallCommon) (pos : Pos)
    (hP : (f.block B).instrs.get? i = some (.call id typ c pos))
    (hT : r.iterTyp = some typ) :
    (unstop r f B i = true ↔
      callStopIn r ((f.block B).instrs.drop i) id = false ∧
        (callStopInSuccs r f B id []).1 = false) ∧
    (callStopIn r ((f.block B).instrs.drop i) id = true ↔
      ∃ j instr cc, i ≤ j ∧ (f.block B).instrs.get? j = some instr ∧
        instr.common? = some cc ∧ isStopCall r cc id = true) ∧
    (∀ j instr cc, i ≤ j → (f.block B).instrs.get? j = some instr →
      instr.common? = some cc → isStopCall r cc id = true →
      unstop r f B i = false ∧ ∀ pass : Pass, reportAt r pass f B i = []) := by
  have htail : callStopIn r ((f.block B).instrs.drop i) id = true ↔
      ∃ j instr cc, i ≤ j ∧ (f.block B).instrs.get? j = some instr ∧
        instr.common? = some cc ∧ isStopCall r cc id = true := by
    rw [callStopIn_iff]
    unfold HasRelease
    constructor
    · rintro ⟨instr, hmem, cc, hc, hs⟩
      obtain ⟨j, hij, hj⟩ := (mem_drop_iff _ _ _).mp hmem
      exact ⟨j, instr, cc, hij, hj, hc, hs⟩
    · rintro ⟨j, instr, cc, hij, hj, hc, hs⟩
      exact ⟨instr, (mem_drop_iff _ _ _).mpr ⟨j, hij, hj⟩, cc, hc, hs⟩
  refine ⟨?_, htail, ?_⟩
  · rw [unstop_producer r f B i id typ c pos hP hT]
    cases callStopIn r ((f.block B).instrs.drop i) id <;>
      cases (callStopInSuccs r f B id []).1 <;> simp
  · intro j instr cc hij hj hc hs
    have hun : unstop r f B i = false := by
      rw [unstop_producer r f B i id typ c pos hP hT,
        htail.mpr ⟨j, instr, cc, hij, hj, hc, hs⟩]
      rfl
    exact ⟨hun, fun pass => reportAt_nil_of_unstop_false r pass f B i hun⟩

/-- Instance of C13 on the producer followed by a deferred release in its own block,
whose only successor returns without releasing. -/
theorem verdict_decomposition_witness :
    (exDeferred.block 0).instrs.get? 0 = some (.call 1 exIterTyp ⟨some exQuery, []⟩ 10) ∧
    exRunner.iterTyp = some exIterTyp ∧
    (callStopInSuccs exRunner exDeferred 0 1 []).1 = false ∧
    (run newRunner (exPass [exDeferred])).diags = [] ∧
    ((unstop exRunner exDeferred 0 0 = true ↔
      callStopIn exRunner ((exDeferred.block 0).instrs.drop 0) 1 = false ∧
        (callStopInSuccs exRunner exDeferred 0 1 []).1 = false) ∧
    (callStopIn exRunner ((exDeferred.block 0).instrs.drop 0) 1 = true ↔
      ∃ j instr cc, 0 ≤ j ∧ (exDeferred.block 0).instrs.get? j = some instr ∧
        instr.common? = some cc ∧ isStopCall exRunner cc 1 = true) ∧
    (∀ j instr cc, 0 ≤ j → (exDeferred.block 0).instrs.get? j = some instr →
      instr.common? = some cc → isStopCall exRunner cc 1 = true →
      unstop exRunner exDeferred 0 0 = false ∧
        ∀ pass : Pass, reportAt exRunner pass exDeferred 0 0 = [])) :=
  ⟨by decide, by decide, by decide, by decide,
    verdict_decomposition exRunner exDeferred 0 0 1 exIterTyp ⟨some exQuery, []⟩ 10
      (by decide) (by decide)⟩

/-- C16. Static dispatch only: in an instruction sequence where every call-like
instruction whose first operand is `P` has no static callee, `callStopIn` answers `false`
for `P`. -/
theorem static_dispatch_only (r : runner) (instrs : List Instruction) (P : Value)
    (h : ∀ instr ∈ instrs, ∀ c, instr.common? = some c → c.args.head? = some P →
      c.staticCallee = none) :
    callStopIn r instrs P = false := by
  rw [Bool.eq_false_iff]
  intro hc
  obtain ⟨instr, hmem, c, hcom, hstop⟩ := (callStopIn_iff _ _ _).mp hc
  unfold isStopCall at hstop
  simp only [Bool.and_eq_true, beq_iff_eq] at hstop
  have hnone := h instr hmem c hcom hstop.2
  rw [hnone] at hstop
  simp [isStopCallee] at hstop

/-- Instance of C16 on the function whose release is dispatched dynamically: the release
is not seen and the producer is reported. -/
theorem static_dispatch_only_witness :
    (∀ instr ∈ (exDynamic.block 0).instrs, ∀ c, instr.common? = some c →
      c.args.head? = some 1 → c.staticCallee = none) ∧
    callStopIn exRunner (exDynamic.block 0).instrs 1 = false ∧
    unstop exRunner exDynamic 0 0 = true :=
  ⟨by decide,
    static_dispatch_only exRunner (exDynamic.block 0).instrs 1 (by decide), by decide⟩

/-- The callee test of `callStopIn`, spelled out. -/
theorem isStopCallee_iff (r : runner) (callee : Option Callee) :
    isStopCallee r callee = true ↔
      ∃ fn p m, callee = some fn ∧ fn.pkg = some p ∧
        fn.relString p = "(*RowIterator).Stop" ∧ r.stopMthd = some m ∧ fn.sig = m.sig := by
  unfold isStopCallee
  cases callee with
  | none => simp
  | some fn =>
    cases hp : fn.pkg with
    | none => simp [hp]
    | some p =>
      cases hm : r.stopMthd with
      | none => simp [hp]
      | some m => simp [hp]

/-- C12, as stated, fails: a producing call without source position that leaks is
reported, at `NoPos`. -/
theorem noPos_producer_reported :
    (exNoPos.block 0).instrs.get? 0 = some (exProduce 1 0) ∧
    (exProduce 1 0).pos = 0 ∧
    (run newRunner (exPass [exNoPos])).err = none ∧
    (run newRunner (exPass [exNoPos])).diags = [(0, "iterator must be stop")] := by
  decide

/-- C12, amended. An instruction without source position is treated like any other: no
diagnostic is reported for it when `unstop` answers `false` for it or the suppression
predicate holds at `NoPos` for one of the two tags; otherwise exactly one diagnostic is
reported for it, at `NoPos`.  The error of `run` is decided by the imports alone, so the
functions, whatever their positions, never make the pass fail. -/
theorem noPos_like_any_position (r : runner) (pass : Pass) (f : Function) (b i : Nat)
    (instr : Instruction)
    (hget : (f.block b).instrs.get? i = some instr) (hpos : instr.pos = 0) :
    ((unstop r f b i = false ∨ pass.ignorePos 0 "zagane" = true ∨
        pass.ignorePos 0 "unstopiter" = true) →
      reportAt r pass f b i = []) ∧
    ((unstop r f b i = true ∧ pass.ignorePos 0 "zagane" = false ∧
        pass.ignorePos 0 "unstopiter" = false) →
      reportAt r pass f b i = [(0, "iterator must be stop")]) ∧
    (∀ r0 : runner, (run r0 pass).err = (run r0 ⟨pass.imports, [], pass.ignorePos⟩).err) := by
  refine ⟨?_, ?_, ?_⟩
  · intro h
    unfold reportAt
    rw [hget]
    simp only [hpos]
    rcases h with h | h | h <;> simp [h]
  · rintro ⟨h1, h2, h3⟩
    unfold reportAt
    rw [hget]
    simp [hpos, h1, h2, h3]
  · intro r0
    exact ((run_resolution_congr r0 pass ⟨pass.imports, [], pass.ignorePos⟩ rfl).2).symm

/-- Instance of the amended C12 on the leaking producer without position. -/
theorem noPos_like_any_position_witness :
    (exNoPos.block 0).instrs.get? 0 = some (exProduce 1 0) ∧ (exProduce 1 0).pos = 0 ∧
    (unstop exRunner exNoPos 0 0 = true ∧ (exPass [exNoPos]).ignorePos 0 "zagane" = false ∧
        (exPass [exNoPos]).ignorePos 0 "unstopiter" = false) ∧
    reportAt exRunner (exPass [exNoPos]) exNoPos 0 0 = [(0, "iterator must be stop")] ∧
    ((unstop exRunner exNoPos 0 0 = false ∨
        (exPassIgnoring [exNoPos] [0]).ignorePos 0 "zagane" = true ∨
        (exPassIgnoring [exNoPos] [0]).ignorePos 0 "unstopiter" = true) ∧
      reportAt exRunner (exPassIgnoring [exNoPos] [0]) exNoPos 0 0 = []) :=
  ⟨by decide, by decide, by decide,
    (noPos_like_any_position exRunner (exPass [exNoPos]) exNoPos 0 0 (exProduce 1 0)
      (by decide) (by decide)).2.1 (by decide),
    by decide,
    (noPos_like_any_position exRunner (exPassIgnoring [exNoPos] [0]) exNoPos 0 0
      (exProduce 1 0) (by decide) (by decide)).1 (by decide)⟩

theorem isReturnIterChecked_eq (instrs : List Instruction) (call : Value) :
    isReturnIterChecked instrs call = some (isReturnIter instrs call) := by
  unfold isReturnIterChecked isReturnIter
  by_cases hlen : instrs.length = 0
  · have : instrs = [] := List.length_eq_zero.mp hlen
    subst this
    rfl
  · rw [if_neg hlen, List.getLast?_eq_getElem?, ← List.get?_eq_getElem?]
    have hlt : instrs.length - 1 < instrs.length := by omega
    obtain ⟨x, hx⟩ : ∃ x, instrs.get? (instrs.length - 1) = some x :=
      ⟨_, List.get?_eq_get hlt⟩
    rw [hx]
    cases x <;> rfl

/-- The walk on a terminal block that is not yet visited. -/
theorem callStopInSuccs_terminal (r : runner) (f : Function) (B : Nat) (P : Value)
    (done : List Nat) (hterm : Terminal f B) (hnd : B ∉ done) :
    callStopInSuccs r f B P done = (isReturnIter (f.block B).instrs P, B :: done) := by
  apply callStopInSuccs_eq_of_fuel r f P 1
  unfold callStopInSuccsFuel
  have hc : done.contains B = false := by simpa using hnd
  have ht : (f.block B).succs.isEmpty = true := by
    unfold Terminal at hterm
    rw [hterm]; rfl
  simp only [hc, ht, Bool.false_eq_true, if_false, if_true]

/-- C14. Terminal base case: for a block `B` without successors that is not in the
visited set, `callStopInSuccs` answers `true` iff `B` is not empty and its last
instruction is a return whose results contain `P`; the index `len(instrs)-1` is read only
when it is in range; an empty block, a last instruction that is not a return, and a
return that does not list `P` are rejected. -/
theorem terminal_base_case (r : runner) (f : Function) (B : Nat) (P : Value)
    (done : List Nat) (hterm : Terminal f B) (hnd : B ∉ done) :
    ((callStopInSuccs r f B P done).1 = true ↔
      (f.block B).instrs ≠ [] ∧
        ∃ rid results pos, (f.block B).instrs.getLast? = some (.ret rid results pos) ∧
          P ∈ results) ∧
    isReturnIterChecked (f.block B).instrs P = some (callStopInSuccs r f B P done).1 ∧
    ((f.block B).instrs = [] → (callStopInSuccs r f B P done).1 = false) ∧
    (∀ instr, (f.block B).instrs.getLast? = some instr →
      (∀ rid results pos, instr ≠ .ret rid results pos) →
      (callStopInSuccs r f B P done).1 = false) ∧
    (∀ rid results pos, (f.block B).instrs.getLast? = some (.ret rid results pos) →
      P ∉ results → (callStopInSuccs r f B P done).1 = false) := by
  rw [callStopInSuccs_terminal r f B P done hterm hnd]
  simp only
  have hiff := isReturnIter_iff (f.block B).instrs P
  unfold ReturnsValue at hiff
  refine ⟨?_, isReturnIterChecked_eq _ _, ?_, ?_, ?_⟩
  · rw [hiff]
    constructor
    · rintro ⟨rid, results, pos, hl, hm⟩
      refine ⟨?_, rid, results, pos, hl, hm⟩
      intro hnil
      rw [hnil] at hl
      simp at hl
    · rintro ⟨_, h⟩
      exact h
  · intro hnil
    rw [hnil]
    rfl
  · intro instr hl hnot
    rw [Bool.eq_false_iff]
    intro ht
    obtain ⟨rid, results, pos, hl', _⟩ := hiff.mp ht
    rw [hl] at hl'
    exact hnot rid results pos (Option.some.inj hl')
  · intro rid results pos hl hnm
    rw [Bool.eq_false_iff]
    intro ht
    obtain ⟨rid', results', pos', hl', hm⟩ := hiff.mp ht
    rw [hl] at hl'
    have := Option.some.inj hl'
    simp only [Instruction.ret.injEq] at this
    exact hnm (this.2.1 ▸ hm)

/-- Instance of C14 on the terminal blocks of the examples: the block `[return P]` is
accepted, the block `[Stop(P), return]` that returns nothing is rejected. -/
theorem terminal_base_case_witness :
    Terminal exBranchReturn 1 ∧ 1 ∉ [0] ∧
    (callStopInSuccs exRunner exBranchReturn 1 1 [0]).1 = true ∧
    (callStopInSuccs exRunner exJoinRelease 3 1 [0]).1 = false ∧
    (callStopInSuccs exRunner exBranchReturn 7 1 [0]).1 = false ∧
    (((callStopInSuccs exRunner exBranchReturn 1 1 [0]).1 = true ↔
      (exBranchReturn.block 1).instrs ≠ [] ∧
        ∃ rid results pos,
          (exBranchReturn.block 1).instrs.getLast? = some (.ret rid results pos) ∧
          1 ∈ results) ∧
    isReturnIterChecked (exBranchReturn.block 1).instrs 1
      = some (callStopInSuccs exRunner exBranchReturn 1 1 [0]).1 ∧
    ((exBranchReturn.block 1).instrs = [] →
      (callStopInSuccs exRunner exBranchReturn 1 1 [0]).1 = false) ∧
    (∀ instr, (exBranchReturn.block 1).instrs.getLast? = some instr →
      (∀ rid results pos, instr ≠ .ret rid results pos) →
      (callStopInSuccs exRunner exBranchReturn 1 1 [0]).1 = false) ∧
    (∀ rid results pos,
      (exBranchReturn.block 1).instrs.getLast? = some (.ret rid results pos) →
      1 ∉ results → (callStopInSuccs exRunner exBranchReturn 1 1 [0]).1 = false)) :=
  ⟨by unfold Terminal; decide, by decide, by decide, by decide, by decide,
    terminal_base_case exRunner exBranchReturn 1 1 [0] (by unfold Terminal; decide)
      (by decide)⟩

theorem succsLoopCount_erase (walk : Nat → List Nat → Option (Bool × List Nat × Nat))
    (walk' : Nat → List Nat → Option (Bool × List Nat)) (rel : Nat → Bool)
    (hw : ∀ s d, (walk s d).map (fun x => (x.1, x.2.1)) = walk' s d) :
    ∀ (ss : List Nat) (done : List Nat),
      (succsLoopCount walk rel ss done).map (fun x => (x.1, x.2.1)) =
        succsLoop walk' rel ss done := by
  intro ss
  induction ss with
  | nil => intro done; rfl
  | cons s ss ih =>
    intro done
    unfold succsLoopCount succsLoop
    by_cases hr : rel s = true
    · simp only [hr, if_true]; exact ih done
    · simp only [hr, Bool.false_eq_true, if_false]
      rw [← hw s done]
      cases hws : walk s done with
      | none => rfl
      | some y =>
        obtain ⟨res, d1, n⟩ := y
        cases res with
        | false => rfl
        | true =>
          simp only [Option.map_some']
          rw [← ih d1]
          cases succsLoopCount walk rel ss d1 with
          | none => rfl
          | some z => rfl

/-- Forgetting the count gives back the walk. -/
theorem callStopInSuccsCount_erase (r : runner) (f : Function) (call : Value) :
    ∀ (fuel b : Nat) (done : List Nat),
      (callStopInSuccsCount r f call fuel b done).map (fun x => (x.1, x.2.1)) =
        callStopInSuccsFuel r f call fuel b done := by
  intro fuel
  induction fuel with
  | zero => intro b done; rfl
  | succ fuel ih =>
    intro b done
    unfold callStopInSuccsCount callStopInSuccsFuel
    by_cases hd : done.contains b = true
    · simp only [hd, if_true]; rfl
    · simp only [hd, Bool.false_eq_true, if_false]
      by_cases ht : (f.block b).succs.isEmpty = true
      · simp only [ht, if_true]; rfl
      · simp only [ht, Bool.false_eq_true, if_false]
        exact succsLoopCount_erase _ _ _ ih _ _

theorem succsLoopCount_bound (f : Function)
    (walk : Nat → List Nat → Option (Bool × List Nat × Nat)) (rel : Nat → Bool)
    (hw : ∀ s d res d' n, walk s d = some (res, d', n) →
      ∃ new, d' = new ++ d ∧ new.Nodup ∧ (∀ x ∈ new, x ∉ d) ∧ n ≤ edgesOut f new) :
    ∀ (ss : List Nat) (done : List Nat) (res : Bool) (d' : List Nat) (n : Nat),
      succsLoopCount walk rel ss done = some (res, d', n) →
      ∃ new, d' = new ++ done ∧ new.Nodup ∧ (∀ x ∈ new, x ∉ done) ∧
        n ≤ ss.length + edgesOut f new := by
  intro ss
  induction ss with
  | nil =>
    intro done res d' n h
    simp only [succsLoopCount, Option.some.injEq, Prod.mk.injEq] at h
    obtain ⟨_, h2, h3⟩ := h
    subst h2 h3
    exact ⟨[], rfl, List.nodup_nil, fun _ hx => by simp at hx, Nat.zero_le _⟩
  | cons s ss ih =>
    intro done res d' n h
    unfold succsLoopCount at h
    by_cases hr : rel s = true
    · simp only [hr, if_true] at h
      obtain ⟨new, h1, h2, h3, h4⟩ := ih done res d' n h
      exact ⟨new, h1, h2, h3, by simp only [List.length_cons]; omega⟩
    · simp only [hr, Bool.false_eq_true, if_false] at h
      cases hws : walk s done with
      | none => rw [hws] at h; simp at h
      | some y =>
        obtain ⟨res1, d1, n1⟩ := y
        rw [hws] at h
        obtain ⟨new1, e1, nd1, dj1, b1⟩ := hw s done res1 d1 n1 hws
        cases res1 with
        | false =>
          simp only [Option.some.injEq, Prod.mk.injEq] at h
          obtain ⟨_, h2, h3⟩ := h
          subst h2 h3
          exact ⟨new1, e1, nd1, dj1, by simp only [List.length_cons]; omega⟩
        | true =>
          simp only at h
          cases hl : succsLoopCount walk rel ss d1 with
          | none => rw [hl] at h; simp at h
          | some z =>
            obtain ⟨res2, d2, n2⟩ := z
            rw [hl] at h
            simp only [Option.some.injEq, Prod.mk.injEq] at h
            obtain ⟨_, h2, h3⟩ := h
            subst h2 h3
            obtain ⟨new2, e2, nd2, dj2, b2⟩ := ih d1 res2 d2 n2 hl
            refine ⟨new2 ++ new1, ?_, ?_, ?_, ?_⟩
            · rw [e2, e1, List.append_assoc]
            · rw [List.nodup_append]
              refine ⟨nd2, nd1, ?_⟩
              intro x hx2 hx1
              exact dj2 x hx2 (by rw [e1]; exact List.mem_append_left _ hx1)
            · intro x hx
              rcases List.mem_append.mp hx with hx2 | hx1
              · intro hd
                exact dj2 x hx2 (by rw [e1]; exact List.mem_append_right _ hd)
              · exact dj1 x hx1
            · have : edgesOut f (new2 ++ new1) = edgesOut f new2 + edgesOut f new1 := by
                unfold edgesOut
                rw [List.map_append, List.sum_append]
              rw [this]
              simp only [List.length_cons]
              omega

/-- The blocks marked by a query are new, pairwise distinct, and the recursive calls are
at most as many as the edges that leave them. -/
theorem callStopInSuccsCount_bound (r : runner) (f : Function) (call : Value) :
    ∀ (fuel b : Nat) (done : List Nat) (res : Bool) (d' : List Nat) (n : Nat),
      callStopInSuccsCount r f call fuel b done = some (res, d', n) →
      ∃ new, d' = new ++ done ∧ new.Nodup ∧ (∀ x ∈ new, x ∉ done) ∧ n ≤ edgesOut f new := by
  intro fuel
  induction fuel with
  | zero => intro b done res d' n h; simp [callStopInSuccsCount] at h
  | succ fuel ih =>
    intro b done res d' n h
    unfold callStopInSuccsCount at h
    by_cases hd : done.contains b = true
    · simp only [hd, if_true, Option.some.injEq, Prod.mk.injEq] at h
      obtain ⟨_, h2, h3⟩ := h
      subst h2 h3
      exact ⟨[], rfl, List.nodup_nil, fun _ hx => by simp at hx, Nat.zero_le _⟩
    · have hnd : b ∉ done := fun hm => hd (by simpa using hm)
      simp only [hd, Bool.false_eq_true, if_false] at h
      by_cases ht : (f.block b).succs.isEmpty = true
      · simp only [ht, if_true, Option.some.injEq, Prod.mk.injEq] at h
        obtain ⟨_, h2, h3⟩ := h
        subst h2 h3
        refine ⟨[b], rfl, List.nodup_singleton b, ?_, Nat.zero_le _⟩
        intro x hx
        rw [List.mem_singleton] at hx
        subst hx
        exact hnd
      · simp only [ht, Bool.false_eq_true, if_false] at h
        obtain ⟨new, e, nd, dj, bd⟩ := succsLoopCount_bound f _ _ ih _ _ res d' n h
        refine ⟨new ++ [b], ?_, ?_, ?_, ?_⟩
        · rw [e, List.append_assoc]; rfl
        · rw [List.nodup_append]
          refine ⟨nd, List.nodup_singleton b, ?_⟩
          intro x hx hb
          rw [List.mem_singleton] at hb
          subst hb
          exact dj x hx (List.mem_cons_self _ _)
        · intro x hx
          rcases List.mem_append.mp hx with hx1 | hx1
          · exact fun hdn => dj x hx1 (List.mem_cons_of_mem _ hdn)
          · rw [List.mem_singleton] at hx1
            subst hx1
            exact hnd
        · have : edgesOut f (new ++ [b]) = edgesOut f new + (f.block b).succs.length := by
            unfold edgesOut
            rw [List.map_append, List.sum_append]
            simp
          rw [this]
          omega

/-- C15. Termination with cycles: on every control-flow graph, from every block and
visited set, the walk returns once its depth bound exceeds the number of blocks, with the
verdict and visited map of `callStopInSuccs`; the blocks it marks were not visited before
and are pairwise distinct, so that each block is expanded at most once in a query, and
the number of recursive calls is at most the number of edges that leave the expanded
blocks.  On a block that is already in the visited set it answers `false` at once,
without marking a block and without a recursive call. -/
theorem walk_terminates (r : runner) (f : Function) (P : Value) (b : Nat) (done : List Nat) :
    (∀ fuel, f.blocks.length + 1 ≤ fuel →
      ∃ n new, callStopInSuccsCount r f P fuel b done =
          some ((callStopInSuccs r f b P done).1, (callStopInSuccs r f b P done).2, n) ∧
        callStopInSuccsFuel r f P fuel b done = some (callStopInSuccs r f b P done) ∧
        (callStopInSuccs r f b P done).2 = new ++ done ∧ new.Nodup ∧
        (∀ x ∈ new, x ∉ done) ∧ n ≤ edgesOut f new) ∧
    (b ∈ done → callStopInSuccs r f b P done = (false, done) ∧
      ∀ fuel, callStopInSuccsCount r f P (fuel + 1) b done = some (false, done, 0)) := by
  constructor
  · intro fuel hfuel
    have hF : callStopInSuccsFuel r f P fuel b done = some (callStopInSuccs r f b P done) :=
      callStopInSuccsFuel_mono r f P _ fuel b done _ hfuel (callStopInSuccs_spec r f P b done)
    have hE := callStopInSuccsCount_erase r f P fuel b done
    rw [hF] at hE
    cases hC : callStopInSuccsCount r f P fuel b done with
    | none => rw [hC] at hE; simp at hE
    | some y =>
      obtain ⟨res, d', n⟩ := y
      rw [hC] at hE
      simp only [Option.map_some', Option.some.injEq] at hE
      obtain ⟨new, e, nd, dj, bd⟩ := callStopInSuccsCount_bound r f P fuel b done res d' n hC
      rw [← hE] at hF ⊢
      exact ⟨n, new, rfl, hF, e, nd, dj, bd⟩
  · intro hmem
    have hc : done.contains b = true := by simpa using hmem
    constructor
    · apply callStopInSuccs_eq_of_fuel r f P 1
      unfold callStopInSuccsFuel
      simp only [hc, if_true]
    · intro fuel
      unfold callStopInSuccsCount
      simp only [hc, if_true]

/-- Instance of C15 on the loop scenario: the walk from the entry block ends after three
recursive calls, having marked the entry, the loop block and the body, once each; the
call on the loop block from the body finds it visited. -/
theorem walk_terminates_witness :
    exLoop.blocks.length + 1 ≤ 6 ∧
    callStopInSuccsCount exRunner exLoop 1 6 0 [] = some (false, [3, 1, 0], 3) ∧
    edgesOut exLoop [3, 1, 0] = 4 ∧
    (∃ n new, callStopInSuccsCount exRunner exLoop 1 6 0 [] =
          some ((callStopInSuccs exRunner exLoop 0 1 []).1,
            (callStopInSuccs exRunner exLoop 0 1 []).2, n) ∧
        callStopInSuccsFuel exRunner exLoop 1 6 0 [] =
          some (callStopInSuccs exRunner exLoop 0 1 []) ∧
        (callStopInSuccs exRunner exLoop 0 1 []).2 = new ++ [] ∧ new.Nodup ∧
        (∀ x ∈ new, x ∉ ([] : List Nat)) ∧ n ≤ edgesOut exLoop new) ∧
    (1 ∈ [1, 0] ∧ callStopInSuccs exRunner exLoop 1 1 [1, 0] = (false, [1, 0]) ∧
      ∀ fuel, callStopInSuccsCount exRunner exLoop 1 (fuel + 1) 1 [1, 0]
        = some (false, [1, 0], 0)) :=
  ⟨by decide, by decide, by decide,
    (walk_terminates exRunner exLoop 1 0 []).1 6 (by decide),
    by decide, (walk_terminates exRunner exLoop 1 1 [1, 0]).2 (by decide)⟩

theorem entered_eq_enteredBy (r : runner) (f : Function) (call : Value) :
    ∀ fuel b, entered r f call fuel b =
      enteredBy (fun b => (f.block b).succs)
        (fun s => callStopIn r (f.block s).instrs call) fuel b := by
  intro fuel
  induction fuel with
  | zero => intro b; rfl
  | succ fuel ih =>
    intro b
    unfold entered enteredBy
    have : entered r f call fuel = enteredBy (fun b => (f.block b).succs)
        (fun s => callStopIn r (f.block s).instrs call) fuel := funext ih
    rw [this]

theorem enteredList_cons_some (ent : Nat → Option (List Nat)) (rel : Nat → Bool) (s : Nat)
    (ss ls : List Nat) (h : enteredList ent rel (s :: ss) = some ls) :
    (rel s = true ∧ enteredList ent rel ss = some ls) ∨
      (rel s = false ∧ ∃ l ls0, ent s = some l ∧ enteredList ent rel ss = some ls0 ∧
        ls = l ++ ls0) := by
  unfold enteredList at h
  by_cases hr : rel s = true
  · simp only [hr, if_true] at h
    exact Or.inl ⟨hr, h⟩
  · simp only [hr, Bool.false_eq_true, if_false] at h
    right
    refine ⟨by simpa using hr, ?_⟩
    cases hes : ent s with
    | none => rw [hes] at h; simp at h
    | some l =>
      cases hel : enteredList ent rel ss with
      | none => rw [hes, hel] at h; simp at h
      | some ls0 =>
        rw [hes, hel] at h
        simp only [Option.some.injEq] at h
        exact ⟨l, ls0, rfl, rfl, h.symm⟩

theorem enteredList_cons_rel (ent : Nat → Option (List Nat)) (rel : Nat → Bool) (s : Nat)
    (ss : List Nat) (h : rel s = true) :
    enteredList ent rel (s :: ss) = enteredList ent rel ss := by
  rw [enteredList]
  simp only [h, if_true]

theorem enteredList_cons_enter (ent : Nat → Option (List Nat)) (rel : Nat → Bool) (s : Nat)
    (ss l ls0 : List Nat) (h : rel s = false) (hl : ent s = some l)
    (hls : enteredList ent rel ss = some ls0) :
    enteredList ent rel (s :: ss) = some (l ++ ls0) := by
  rw [enteredList]
  simp only [h, Bool.false_eq_true, if_false, hl, hls]

theorem enteredBy_succ_some (succs : Nat → List Nat) (rel : Nat → Bool) (fuel b : Nat)
    (l : List Nat) (h : enteredBy succs rel (fuel + 1) b = some l) :
    ∃ ls, enteredList (enteredBy succs rel fuel) rel (succs b) = some ls ∧ l = b :: ls := by
  unfold enteredBy at h
  cases hel : enteredList (enteredBy succs rel fuel) rel (succs b) with
  | none => rw [hel] at h; simp at h
  | some ls =>
    rw [hel] at h
    simp only [Option.map_some', Option.some.injEq] at h
    exact ⟨ls, rfl, h.symm⟩

theorem enteredBy_succ_of (succs : Nat → List Nat) (rel : Nat → Bool) (fuel b : Nat)
    (ls : List Nat) (h : enteredList (enteredBy succs rel fuel) rel (succs b) = some ls) :
    enteredBy succs rel (fuel + 1) b = some (b :: ls) := by
  rw [enteredBy, h]
  rfl

theorem enteredList_congr_some (ent ent' : Nat → Option (List Nat)) (rel : Nat → Bool)
    (h : ∀ s l, ent s = some l → ent' s = some l) :
    ∀ ss ls, enteredList ent rel ss = some ls → enteredList ent' rel ss = some ls := by
  intro ss
  induction ss with
  | nil => intro ls hls; exact hls
  | cons s ss ih =>
    intro ls hls
    rcases enteredList_cons_some ent rel s ss ls hls with ⟨hr, h1⟩ | ⟨hr, l, ls0, h1, h2, h3⟩
    · rw [enteredList_cons_rel _ _ _ _ hr]; exact ih ls h1
    · rw [h3]
      exact enteredList_cons_enter _ _ _ _ _ _ hr (h s l h1) (ih ls0 h2)

/-- An unfolding obtained with some fuel is obtained with any larger fuel. -/
theorem enteredBy_mono (succs : Nat → List Nat) (rel : Nat → Bool) :
    ∀ (fuel fuel' b : Nat) (l : List Nat), fuel ≤ fuel' →
      enteredBy succs rel fuel b = some l → enteredBy succs rel fuel' b = some l := by
  intro fuel
  induction fuel with
  | zero => intro fuel' b l _ h; simp [enteredBy] at h
  | succ fuel ih =>
    intro fuel' b l hle h
    obtain ⟨k, rfl⟩ : ∃ k, fuel' = k + 1 := ⟨fuel' - 1, by omega⟩
    obtain ⟨ls, hls, rfl⟩ := enteredBy_succ_some succs rel fuel b l h
    exact enteredBy_succ_of succs rel k b ls
      (enteredList_congr_some _ _ rel (fun s l hs => ih k s l (by omega) hs) _ _ hls)

theorem enteredList_mem_rel (ent : Nat → Option (List Nat)) (rel : Nat → Bool)
    (h : ∀ s l, ent s = some l → ∀ x ∈ l, x = s ∨ rel x = false) :
    ∀ ss ls, enteredList ent rel ss = some ls → ∀ x ∈ ls, rel x = false := by
  intro ss
  induction ss with
  | nil =>
    intro ls hls x hx
    simp only [enteredList, Option.some.injEq] at hls
    subst hls
    simp at hx
  | cons s ss ih =>
    intro ls hls x hx
    rcases enteredList_cons_some ent rel s ss ls hls with ⟨_, h1⟩ | ⟨hr, l, ls0, h1, h2, h3⟩
    · exact ih ls h1 x hx
    · subst h3
      rcases List.mem_append.mp hx with hx1 | hx1
      · rcases h s l h1 x hx1 with rfl | hx2
        · exact hr
        · exact hx2
      · exact ih ls0 h2 x hx1

/-- Every block of the unfolding other than its root fails the test `rel`. -/
theorem enteredBy_mem_rel (succs : Nat → List Nat) (rel : Nat → Bool) :
    ∀ (fuel b : Nat) (l : List Nat), enteredBy succs rel fuel b = some l →
      ∀ x ∈ l, x = b ∨ rel x = false := by
  intro fuel
  induction fuel with
  | zero => intro b l h; simp [enteredBy] at h
  | succ fuel ih =>
    intro b l h x hx
    obtain ⟨ls, hls, rfl⟩ := enteredBy_succ_some succs rel fuel b l h
    rcases List.mem_cons.mp hx with rfl | hx1
    · exact Or.inl rfl
    · exact Or.inr (enteredList_mem_rel _ rel ih _ _ hls x hx1)

theorem enteredList_sub (ent ent' : Nat → Option (List Nat)) (rel rel' : Nat → Bool)
    (hrel : ∀ s, rel s = true → rel' s = true)
    (h : ∀ s l, ent s = some l → ∃ l', ent' s = some l' ∧ l'.Sublist l) :
    ∀ ss ls, enteredList ent rel ss = some ls →
      ∃ ls', enteredList ent' rel' ss = some ls' ∧ ls'.Sublist ls := by
  intro ss
  induction ss with
  | nil => intro ls hls; exact ⟨ls, hls, List.Sublist.refl _⟩
  | cons s ss ih =>
    intro ls hls
    rcases enteredList_cons_some ent rel s ss ls hls with ⟨hr, h1⟩ | ⟨hr, l, ls0, h1, h2, h3⟩
    · rw [enteredList_cons_rel _ _ _ _ (hrel s hr)]; exact ih ls h1
    · obtain ⟨ls0', e0, sub0⟩ := ih ls0 h2
      subst h3
      by_cases hr' : rel' s = true
      · rw [enteredList_cons_rel _ _ _ _ hr']
        exact ⟨ls0', e0, sub0.trans (List.sublist_append_right _ _)⟩
      · obtain ⟨l', e1, sub1⟩ := h s l h1
        exact ⟨l' ++ ls0', enteredList_cons_enter _ _ _ _ _ _ (by simpa using hr') e1 e0,
          List.Sublist.append sub1 sub0⟩

/-- A stronger test enters fewer blocks: the unfolding shrinks to a sublist. -/
theorem enteredBy_sub (succs : Nat → List Nat) (rel rel' : Nat → Bool)
    (hrel : ∀ s, rel s = true → rel' s = true) :
    ∀ (fuel b : Nat) (l : List Nat), enteredBy succs rel fuel b = some l →
      ∃ l', enteredBy succs rel' fuel b = some l' ∧ l'.Sublist l := by
  intro fuel
  induction fuel with
  | zero => intro b l h; simp [enteredBy] at h
  | succ fuel ih =>
    intro b l h
    obtain ⟨ls, hls, rfl⟩ := enteredBy_succ_some succs rel fuel b l h
    obtain ⟨ls', e, sub⟩ := enteredList_sub _ _ rel rel' hrel ih _ _ hls
    exact ⟨b :: ls', enteredBy_succ_of succs rel' fuel b ls' e, List.Sublist.cons₂ b sub⟩

theorem succsLoop_true_entered (walk : Nat → List Nat → Option (Bool × List Nat))
    (ent : Nat → Option (List Nat)) (rel : Nat → Bool) (T : Nat → Prop)
    (hw : ∀ s d d1, walk s d = some (true, d1) →
      ∃ l, ent s = some l ∧ l.Nodup ∧ (∀ x ∈ l, x ∉ d) ∧ (∀ x, x ∈ d1 ↔ x ∈ l ∨ x ∈ d) ∧
        ∀ x ∈ l, T x) :
    ∀ (ss : List Nat) (done d' : List Nat), succsLoop walk rel ss done = some (true, d') →
      ∃ ls, enteredList ent rel ss = some ls ∧ ls.Nodup ∧ (∀ x ∈ ls, x ∉ done) ∧
        (∀ x, x ∈ d' ↔ x ∈ ls ∨ x ∈ done) ∧ ∀ x ∈ ls, T x := by
  intro ss
  induction ss with
  | nil =>
    intro done d' h
    simp only [succsLoop, Option.some.injEq, Prod.mk.injEq, true_and] at h
    subst h
    exact ⟨[], rfl, List.nodup_nil, fun _ hx => by simp at hx, fun x => by simp,
      fun _ hx => by simp at hx⟩
  | cons s ss ih =>
    intro done d' h
    unfold succsLoop at h
    by_cases hr : rel s = true
    · simp only [hr, if_true] at h
      obtain ⟨ls, e, nd, dj, hd, hT⟩ := ih done d' h
      exact ⟨ls, by rw [enteredList_cons_rel _ _ _ _ hr]; exact e, nd, dj, hd, hT⟩
    · simp only [hr, Bool.false_eq_true, if_false] at h
      cases hws : walk s done with
      | none => rw [hws] at h; simp at h
      | some y =>
        obtain ⟨res, d1⟩ := y
        rw [hws] at h
        cases res with
        | false => simp at h
        | true =>
          simp only at h
          obtain ⟨l, e1, nd1, dj1, hd1, hT1⟩ := hw s done d1 hws
          obtain ⟨ls, e2, nd2, dj2, hd2, hT2⟩ := ih d1 d' h
          refine ⟨l ++ ls, enteredList_cons_enter _ _ _ _ _ _ (by simpa using hr) e1 e2,
            ?_, ?_, ?_, ?_⟩
          · rw [List.nodup_append]
            refine ⟨nd1, nd2, ?_⟩
            intro x hx1 hx2
            exact dj2 x hx2 ((hd1 x).mpr (Or.inl hx1))
          · intro x hx
            rcases List.mem_append.mp hx with hx1 | hx2
            · exact dj1 x hx1
            · exact fun hdn => dj2 x hx2 ((hd1 x).mpr (Or.inr hdn))
          · intro x
            rw [hd2 x, hd1 x, List.mem_append]
            tauto
          · intro x hx
            rcases List.mem_append.mp hx with hx1 | hx2
            · exact hT1 x hx1
            · exact hT2 x hx2

/-- A `true` verdict of the walk comes from an unfolding without repetition: the blocks
entered from `b` are new, pairwise distinct, they are the blocks the walk marks, and each
terminal block among them returns the value. -/
theorem callStopInSuccsFuel_true_entered (r : runner) (f : Function) (call : Value) :
    ∀ (fuel b : Nat) (done d' : List Nat),
      callStopInSuccsFuel r f call fuel b done = some (true, d') →
      ∃ l, entered r f call fuel b = some l ∧ l.Nodup ∧ (∀ x ∈ l, x ∉ done) ∧
        (∀ x, x ∈ d' ↔ x ∈ l ∨ x ∈ done) ∧
        ∀ x ∈ l, Terminal f x → isReturnIter (f.block x).instrs call = true := by
  intro fuel
  induction fuel with
  | zero => intro b done d' h; simp [callStopInSuccsFuel] at h
  | succ fuel ih =>
    intro b done d' h
    unfold callStopInSuccsFuel at h
    by_cases hd : done.contains b = true
    · simp only [hd, if_true] at h; simp at h
    · have hnd : b ∉ done := fun hm => hd (by simpa using hm)
      simp only [hd, Bool.false_eq_true, if_false] at h
      by_cases ht : (f.block b).succs.isEmpty = true
      · simp only [ht, if_true, Option.some.injEq, Prod.mk.injEq] at h
        have hnil : (f.block b).succs = [] := by simpa using ht
        obtain ⟨hret, hd'⟩ := h
        subst hd'
        refine ⟨[b], ?_, List.nodup_singleton b, ?_, ?_, ?_⟩
        · unfold entered
          rw [hnil]
          rfl
        · intro x hx
          rw [List.mem_singleton] at hx
          subst hx; exact hnd
        · intro x; simp
        · intro x hx _
          rw [List.mem_singleton] at hx
          subst hx; exact hret
      · simp only [ht, Bool.false_eq_true, if_false] at h
        obtain ⟨ls, e, nd, dj, hdm, hT⟩ := succsLoop_true_entered _ (entered r f call fuel) _
          (fun x => Terminal f x → isReturnIter (f.block x).instrs call = true)
          ih _ _ _ h
        refine ⟨b :: ls, ?_, ?_, ?_, ?_, ?_⟩
        · unfold entered
          rw [e]
          rfl
        · rw [List.nodup_cons]
          exact ⟨fun hb => dj b hb (List.mem_cons_self _ _), nd⟩
        · intro x hx
          rcases List.mem_cons.mp hx with rfl | hx1
          · exact hnd
          · exact fun hdn => dj x hx1 (List.mem_cons_of_mem _ hdn)
        · intro x
          rw [hdm x, List.mem_cons, List.mem_cons]
          tauto
        · intro x hx hterm
          rcases List.mem_cons.mp hx with rfl | hx1
          · unfold Terminal at hterm
            rw [hterm] at ht
            simp at ht
          · exact hT x hx1 hterm

theorem enteredList_mem_sub (ent : Nat → Option (List Nat)) (rel : Nat → Bool) :
    ∀ ss ls, enteredList ent rel ss = some ls →
      ∀ s ∈ ss, rel s = false → ∀ l, ent s = some l → ∀ x ∈ l, x ∈ ls := by
  intro ss
  induction ss with
  | nil => intro ls _ s hs; simp at hs
  | cons t ts ih =>
    intro ls hls s hs hrs l hl x hx
    rcases enteredList_cons_some ent rel t ts ls hls with ⟨hr, h1⟩ | ⟨hr, l0, ls0, h1, h2, h3⟩
    · rcases List.mem_cons.mp hs with rfl | hmem
      · rw [hr] at hrs; simp at hrs
      · exact ih ls h1 s hmem hrs l hl x hx
    · subst h3
      rcases List.mem_cons.mp hs with rfl | hmem
      · rw [h1] at hl
        simp only [Option.some.injEq] at hl
        subst hl
        exact List.mem_append_left _ hx
      · exact List.mem_append_right _ (ih ls0 h2 s hmem hrs l hl x hx)

/-- An unfolding without repetition whose terminal blocks return the value makes the walk
answer `true`. -/
theorem callStopInSuccsFuel_of_entered (r : runner) (f : Function) (call : Value) :
    ∀ (fuel b : Nat) (l done : List Nat), entered r f call fuel b = some l → l.Nodup →
      (∀ x ∈ l, x ∉ done) →
      (∀ x ∈ l, Terminal f x → isReturnIter (f.block x).instrs call = true) →
      ∃ d', callStopInSuccsFuel r f call fuel b done = some (true, d') ∧
        ∀ x ∈ d', x ∈ done ∨ x ∈ l := by
  intro fuel
  induction fuel with
  | zero => intro b l done h; simp [entered] at h
  | succ fuel ih =>
    intro b l done he hnd hdisj hT
    unfold entered at he
    cases hel : enteredList (entered r f call fuel)
        (fun s => callStopIn r (f.block s).instrs call) (f.block b).succs with
    | none => rw [hel] at he; simp at he
    | some ls =>
      rw [hel] at he
      simp only [Option.map_some', Option.some.injEq] at he
      subst he
      have hbd : done.contains b = false := by
        have := hdisj b (List.mem_cons_self _ _)
        simpa using this
      unfold callStopInSuccsFuel
      simp only [hbd, Bool.false_eq_true, if_false]
      by_cases ht : (f.block b).succs.isEmpty = true
      · simp only [ht, if_true]
        have hnil : (f.block b).succs = [] := by simpa using ht
        rw [hT b (List.mem_cons_self _ _) hnil]
        refine ⟨b :: done, rfl, ?_⟩
        intro x hx
        rcases List.mem_cons.mp hx with rfl | hd
        · exact Or.inr (List.mem_cons_self _ _)
        · exact Or.inl hd
      · simp only [ht, Bool.false_eq_true, if_false]
        rw [List.nodup_cons] at hnd
        obtain ⟨d', h', hsub⟩ := succsLoop_tree (callStopInSuccsFuel r f call fuel)
          (entered r f call fuel) (fun s => callStopIn r (f.block s).instrs call)
          (fun s => ∀ l, entered r f call fuel s = some l →
            ∀ x ∈ l, Terminal f x → isReturnIter (f.block x).instrs call = true)
          (fun s l d hQ hes hn hdj => ih s l d hes hn hdj (hQ l hes))
          (f.block b).succs ls (b :: done)
          (fun s hs hrel l hl x hx =>
            hT x (List.mem_cons_of_mem _ (enteredList_mem_sub _ _ _ _ hel s hs hrel l hl x hx)))
          hel hnd.2
          (by
            intro x hx hxd
            rcases List.mem_cons.mp hxd with rfl | hd
            · exact hnd.1 hx
            · exact hdisj x (List.mem_cons_of_mem _ hx) hd)
        refine ⟨d', h', ?_⟩
        intro x hx
        rcases hsub x hx with hd | hl
        · rcases List.mem_cons.mp hd with rfl | hd'
          · exact Or.inr (List.mem_cons_self _ _)
          · exact Or.inl hd'
        · exact Or.inr (List.mem_cons_of_mem _ hl)

/-- The verdict of `callStopInSuccs` from an empty visited set, characterised: it is
`true` exactly when the blocks entered from `b` are entered once each and every terminal
block among them returns the value. -/
theorem callStopInSuccs_true_iff (r : runner) (f : Function) (b : Nat) (call : Value) :
    (callStopInSuccs r f b call []).1 = true ↔
      ∃ fuel l, entered r f call fuel b = some l ∧ l.Nodup ∧
        ∀ x ∈ l, Terminal f x → isReturnIter (f.block x).instrs call = true := by
  constructor
  · intro h
    have hspec := callStopInSuccs_spec r f call b []
    obtain ⟨l, e, nd, _, _, hT⟩ := callStopInSuccsFuel_true_entered r f call _ b []
      (callStopInSuccs r f b call []).2 (by rw [hspec, ← h])
    exact ⟨_, l, e, nd, hT⟩
  · rintro ⟨fuel, l, e, nd, hT⟩
    obtain ⟨d', h', _⟩ := callStopInSuccsFuel_of_entered r f call fuel b l [] e nd
      (fun x _ hx => by simp at hx) hT
    rw [callStopInSuccs_eq_of_fuel r f call fuel b [] _ h']

theorem block_of_ge (f : Function) (b : Nat) (h : f.blocks.length ≤ b) :
    f.block b = ⟨[], []⟩ := by
  unfold Function.block
  exact List.getD_eq_default _ _ h

theorem SuccsPermuted.all (f f' : Function) (h : SuccsPermuted f f') (b : Nat) :
    (f'.block b).instrs = (f.block b).instrs ∧ (f'.block b).succs.Perm (f.block b).succs := by
  by_cases hb : b < f.blocks.length
  · exact h.2 b hb
  · rw [block_of_ge f b (not_lt.mp hb), block_of_ge f' b (by rw [h.1]; exact not_lt.mp hb)]
    exact ⟨rfl, List.Perm.refl _⟩

theorem SuccsPermuted.symm (f f' : Function) (h : SuccsPermuted f f') : SuccsPermuted f' f :=
  ⟨h.1.symm, fun b _ => ⟨(h.all f f' b).1.symm, (h.all f f' b).2.symm⟩⟩

theorem enteredList_perm (ent : Nat → Option (List Nat)) (rel : Nat → Bool)
    (ss ss' : List Nat) (hp : ss.Perm ss') :
    ∀ ls, enteredList ent rel ss = some ls →
      ∃ ls', enteredList ent rel ss' = some ls' ∧ ls'.Perm ls := by
  induction hp with
  | nil => intro ls h; exact ⟨ls, h, List.Perm.refl _⟩
  | cons s _ ih =>
    intro ls h
    rcases enteredList_cons_some ent rel s _ ls h with ⟨hr, h1⟩ | ⟨hr, l, ls0, h1, h2, h3⟩
    · rw [enteredList_cons_rel _ _ _ _ hr]; exact ih ls h1
    · obtain ⟨ls0', e, p⟩ := ih ls0 h2
      subst h3
      exact ⟨l ++ ls0', enteredList_cons_enter _ _ _ _ _ _ hr h1 e, List.Perm.append_left l p⟩
  | swap s t ts =>
    intro ls h
    rcases enteredList_cons_some ent rel t _ ls h with ⟨hrt, h1⟩ | ⟨hrt, lt, ls0, ht, h2, h3⟩
    · rcases enteredList_cons_some ent rel s _ ls h1 with ⟨hrs, h4⟩ | ⟨hrs, l, ls1, hs, h5, h6⟩
      · refine ⟨ls, ?_, List.Perm.refl _⟩
        rw [enteredList_cons_rel _ _ _ _ hrs, enteredList_cons_rel _ _ _ _ hrt]
        exact h4
      · refine ⟨ls, ?_, List.Perm.refl _⟩
        rw [h6]
        exact enteredList_cons_enter _ _ _ _ _ _ hrs hs
          (by rw [enteredList_cons_rel _ _ _ _ hrt]; exact h5)
    · rcases enteredList_cons_some ent rel s _ ls0 h2 with ⟨hrs, h4⟩ | ⟨hrs, l, ls1, hs, h5, h6⟩
      · refine ⟨ls, ?_, List.Perm.refl _⟩
        rw [enteredList_cons_rel _ _ _ _ hrs, h3]
        exact enteredList_cons_enter _ _ _ _ _ _ hrt ht h4
      · refine ⟨l ++ (lt ++ ls1), ?_, ?_⟩
        · exact enteredList_cons_enter _ _ _ _ _ _ hrs hs
            (enteredList_cons_enter _ _ _ _ _ _ hrt ht h5)
        · rw [h3, h6, ← List.append_assoc, ← List.append_assoc]
          exact List.Perm.append_right ls1 List.perm_append_comm
  | trans _ _ ih1 ih2 =>
    intro ls h
    obtain ⟨ls1, e1, p1⟩ := ih1 ls h
    obtain ⟨ls2, e2, p2⟩ := ih2 ls1 e1
    exact ⟨ls2, e2, p2.trans p1⟩

theorem enteredList_congr_perm (ent ent' : Nat → Option (List Nat)) (rel : Nat → Bool)
    (h : ∀ s l, ent s = some l → ∃ l', ent' s = some l' ∧ l'.Perm l) :
    ∀ ss ls, enteredList ent rel ss = some ls →
      ∃ ls', enteredList ent' rel ss = some ls' ∧ ls'.Perm ls := by
  intro ss
  induction ss with
  | nil => intro ls hls; exact ⟨ls, hls, List.Perm.refl _⟩
  | cons s ss ih =>
    intro ls hls
    rcases enteredList_cons_some ent rel s ss ls hls with ⟨hr, h1⟩ | ⟨hr, l, ls0, h1, h2, h3⟩
    · rw [enteredList_cons_rel _ _ _ _ hr]; exact ih ls h1
    · obtain ⟨ls0', e0, p0⟩ := ih ls0 h2
      obtain ⟨l', e1, p1⟩ := h s l h1
      subst h3
      exact ⟨l' ++ ls0', enteredList_cons_enter _ _ _ _ _ _ hr e1 e0, List.Perm.append p1 p0⟩

/-- Permuting the successor lists permutes the unfolding. -/
theorem enteredBy_perm (succs succs' : Nat → List Nat) (rel : Nat → Bool)
    (hp : ∀ b, (succs' b).Perm (succs b)) :
    ∀ (fuel b : Nat) (l : List Nat), enteredBy succs rel fuel b = some l →
      ∃ l', enteredBy succs' rel fuel b = some l' ∧ l'.Perm l := by
  intro fuel
  induction fuel with
  | zero => intro b l h; simp [enteredBy] at h
  | succ fuel ih =>
    intro b l h
    obtain ⟨ls, hls, rfl⟩ := enteredBy_succ_some succs rel fuel b l h
    obtain ⟨ls1, e1, p1⟩ := enteredList_congr_perm _ _ rel ih _ _ hls
    obtain ⟨ls2, e2, p2⟩ := enteredList_perm _ rel _ _ (hp b).symm ls1 e1
    exact ⟨b :: ls2, enteredBy_succ_of succs' rel fuel b ls2 e2,
      List.Perm.cons b (p2.trans p1)⟩

theorem callStopInSuccs_true_of_permuted (r : runner) (f f' : Function) (B : Nat)
    (P : Value) (h : SuccsPermuted f f')
    (ht : (callStopInSuccs r f B P []).1 = true) :
    (callStopInSuccs r f' B P []).1 = true := by
  obtain ⟨fuel, l, e, nd, hT⟩ := (callStopInSuccs_true_iff r f B P).mp ht
  rw [entered_eq_enteredBy] at e
  have hrel : (fun s => callStopIn r (f'.block s).instrs P) =
      (fun s => callStopIn r (f.block s).instrs P) := by
    funext s
    rw [(h.all f f' s).1]
  obtain ⟨l', e', p⟩ := enteredBy_perm (fun b => (f.block b).succs)
    (fun b => (f'.block b).succs) _ (fun b => (h.all f f' b).2) fuel B l e
  refine (callStopInSuccs_true_iff r f' B P).mpr ⟨fuel, l', ?_, p.nodup_iff.mpr nd, ?_⟩
  · rw [entered_eq_enteredBy, hrel]
    exact e'
  · intro x hx hterm
    rw [(h.all f f' x).1]
    refine hT x (p.mem_iff.mp hx) ?_
    unfold Terminal at hterm ⊢
    have := (h.all f f' x).2
    rw [hterm] at this
    exact List.Perm.eq_nil this.symm

/-- C19. Successor-order independence: when the successor list of any block is permuted,
the verdict of `callStopInSuccs` from the empty visited set, and hence that of `unstop`,
is unchanged. -/
theorem successor_order_independent (r : runner) (f f' : Function) (B : Nat) (P : Value)
    (h : SuccsPermuted f f') :
    (callStopInSuccs r f' B P []).1 = (callStopInSuccs r f B P []).1 ∧
      ∀ (C i : Nat), unstop r f' C i = unstop r f C i := by
  have hwalk : ∀ C Q, (callStopInSuccs r f' C Q []).1 = (callStopInSuccs r f C Q []).1 := by
    intro C Q
    rw [Bool.eq_iff_iff]
    exact ⟨callStopInSuccs_true_of_permuted r f' f C Q (h.symm f f'),
      callStopInSuccs_true_of_permuted r f f' C Q h⟩
  refine ⟨hwalk B P, ?_⟩
  intro C i
  unfold unstop
  rw [(h.all f f' C).1]
  cases (f.block C).instrs.get? i with
  | none => rfl
  | some instr =>
    cases instr with
    | call id typ c pos => simp only [hwalk C id]
    | _ => rfl

/-- Instance of C19 on the diamond followed by the release and the same function with the
successors of the entry block swapped: both are rejected. -/
theorem successor_order_independent_witness :
    SuccsPermuted exDiamond exDiamondSwapped ∧
    (callStopInSuccs exRunner exDiamond 0 1 []).1 = false ∧
    ((callStopInSuccs exRunner exDiamondSwapped 0 1 []).1
        = (callStopInSuccs exRunner exDiamond 0 1 []).1 ∧
      ∀ (C i : Nat), unstop exRunner exDiamondSwapped C i = unstop exRunner exDiamond C i) := by
  have hp : SuccsPermuted exDiamond exDiamondSwapped := by
    refine ⟨by decide, ?_⟩
    intro b hb
    have hb5 : b < 5 := hb
    interval_cases b
    · exact ⟨by decide, by decide⟩
    · exact ⟨by decide, List.Perm.refl _⟩
    · exact ⟨by decide, List.Perm.refl _⟩
    · exact ⟨by decide, List.Perm.refl _⟩
    · exact ⟨by decide, List.Perm.refl _⟩
  exact ⟨hp, by decide, successor_order_independent exRunner exDiamond exDiamondSwapped 0 1 hp⟩

theorem insertInstr_block_ne (f : Function) (X k : Nat) (instr : Instruction) (b : Nat)
    (h : b ≠ X) : (insertInstr f X k instr).block b = f.block b := by
  unfold insertInstr Function.block
  simp only [List.getD_eq_getElem?_getD]
  rw [List.getElem?_set_ne (Ne.symm h)]

theorem block_set_self (blocks : List BasicBlock) (X : Nat) (nb : BasicBlock)
    (h : X < blocks.length) : (Function.mk (blocks.set X nb)).block X = nb := by
  unfold Function.block
  simp only [List.getD_eq_getElem?_getD]
  rw [List.getElem?_set_self h]
  rfl

theorem insertInstr_block_eq (f : Function) (X k : Nat) (instr : Instruction)
    (h : X < f.blocks.length) :
    (insertInstr f X k instr).block X =
      ⟨(f.block X).instrs.take k ++ instr :: (f.block X).instrs.drop k,
        (f.block X).succs⟩ := by
  unfold insertInstr
  exact block_set_self f.blocks X _ h

theorem insertInstr_of_ge (f : Function) (X k : Nat) (instr : Instruction)
    (h : f.blocks.length ≤ X) : insertInstr f X k instr = f := by
  unfold insertInstr
  rw [List.set_eq_of_length_le h]

theorem insertInstr_succs (f : Function) (X k : Nat) (instr : Instruction) (b : Nat) :
    ((insertInstr f X k instr).block b).succs = (f.block b).succs := by
  by_cases hb : b = X
  · subst hb
    by_cases hlt : b < f.blocks.length
    · rw [insertInstr_block_eq f b k instr hlt]
    · rw [insertInstr_of_ge f b k instr (not_lt.mp hlt)]
  · rw [insertInstr_block_ne f X k instr b hb]

theorem mem_insert_of_mem (l : List Instruction) (k : Nat) (a x : Instruction) (h : x ∈ l) :
    x ∈ l.take k ++ a :: l.drop k := by
  rw [← List.take_append_drop k l] at h
  rcases List.mem_append.mp h with h1 | h1
  · exact List.mem_append_left _ h1
  · exact List.mem_append_right _ (List.mem_cons_of_mem _ h1)

theorem get?_insert_lt (l : List Instruction) (k i : Nat) (a : Instruction)
    (hik : i < k) (hil : i < l.length) :
    (l.take k ++ a :: l.drop k).get? i = l.get? i := by
  rw [List.get?_eq_getElem?, List.get?_eq_getElem?,
    List.getElem?_append_left (by rw [List.length_take]; omega),
    List.getElem?_take_of_lt hik]

theorem get?_insert_ge (l : List Instruction) (k i : Nat) (a : Instruction)
    (hki : k ≤ i) (hkl : k ≤ l.length) :
    (l.take k ++ a :: l.drop k).get? (i + 1) = l.get? i := by
  have hlen : (l.take k).length = k := by rw [List.length_take]; omega
  rw [List.get?_eq_getElem?, List.get?_eq_getElem?,
    List.getElem?_append_right (by rw [hlen]; omega), hlen]
  have : i + 1 - k = (i - k) + 1 := by omega
  rw [this, List.getElem?_cons_succ, List.getElem?_drop]
  congr 1
  omega

theorem drop_insert_ge (l : List Instruction) (k i : Nat) (a : Instruction)
    (hki : k ≤ i) (hkl : k ≤ l.length) :
    (l.take k ++ a :: l.drop k).drop (i + 1) = l.drop i := by
  have hlen : (l.take k).length = k := by rw [List.length_take]; omega
  have : i + 1 = (l.take k).length + ((i - k) + 1) := by rw [hlen]; omega
  rw [this, List.drop_append]
  simp only [List.drop_succ_cons, List.drop_drop]
  congr 1
  omega

theorem mem_drop_insert_lt (l : List Instruction) (k i : Nat) (a : Instruction)
    (hik : i < k) (hil : i < l.length) :
    a ∈ (l.take k ++ a :: l.drop k).drop i := by
  rw [List.drop_append_of_le_length (by rw [List.length_take]; omega)]
  exact List.mem_append_right _ (List.mem_cons_self _ _)

theorem isReturnIter_insert (l : List Instruction) (k : Nat) (a : Instruction) (P : Value)
    (hk : k < l.length) :
    isReturnIter (l.take k ++ a :: l.drop k) P = isReturnIter l P := by
  have hne : l.drop k ≠ [] := by
    intro h
    have := congrArg List.length h
    simp only [List.length_drop, List.length_nil] at this
    omega
  have hlast : (l.take k ++ a :: l.drop k).getLast? = l.getLast? := by
    obtain ⟨x, xs, hx⟩ := List.exists_cons_of_ne_nil hne
    have h1 : l.getLast? = (l.take k ++ l.drop k).getLast? := by rw [List.take_append_drop]
    rw [h1, List.getLast?_append, List.getLast?_append, hx]
    simp [List.getLast?_cons_cons]
  unfold isReturnIter
  rw [hlast]

theorem callStopIn_insert_of_true (r : runner) (f : Function) (X k : Nat)
    (instr : Instruction) (P : Value) (b : Nat)
    (h : callStopIn r (f.block b).instrs P = true) :
    callStopIn r ((insertInstr f X k instr).block b).instrs P = true := by
  by_cases hb : b = X
  · subst hb
    by_cases hlt : b < f.blocks.length
    · rw [insertInstr_block_eq f b k instr hlt]
      rw [callStopIn_iff] at h ⊢
      obtain ⟨x, hx, c, hc, hs⟩ := h
      exact ⟨x, mem_insert_of_mem _ k instr x hx, c, hc, hs⟩
    · rw [insertInstr_of_ge f b k instr (not_lt.mp hlt)]
      exact h
  · rw [insertInstr_block_ne f X k instr b hb]
    exact h

theorem callStopIn_insert_self (r : runner) (f : Function) (X k : Nat)
    (instr : Instruction) (P : Value) (cc : CallCommon) (hlt : X < f.blocks.length)
    (hc : instr.common? = some cc) (hs : isStopCall r cc P = true) :
    callStopIn r ((insertInstr f X k instr).block X).instrs P = true := by
  rw [insertInstr_block_eq f X k instr hlt, callStopIn_iff]
  exact ⟨instr, List.mem_append_right _ (List.mem_cons_self _ _), cc, hc, hs⟩

/-- Inserting a release of `P` keeps a `true` verdict of the walk from `B`, provided the
insertion leaves the test of the last instruction of `B` as it was. -/
theorem callStopInSuccs_insert_true (r : runner) (f : Function) (X k : Nat)
    (instr : Instruction) (P : Value) (cc : CallCommon) (B : Nat)
    (hlt : X < f.blocks.length)
    (hc : instr.common? = some cc) (hs : isStopCall r cc P = true)
    (hroot : isReturnIter ((insertInstr f X k instr).block B).instrs P =
      isReturnIter (f.block B).instrs P)
    (ht : (callStopInSuccs r f B P []).1 = true) :
    (callStopInSuccs r (insertInstr f X k instr) B P []).1 = true := by
  obtain ⟨fuel, l, e, nd, hT⟩ := (callStopInSuccs_true_iff r f B P).mp ht
  rw [entered_eq_enteredBy] at e
  obtain ⟨l', e', sub⟩ := enteredBy_sub (fun b => (f.block b).succs)
    (fun s => callStopIn r (f.block s).instrs P)
    (fun s => callStopIn r ((insertInstr f X k instr).block s).instrs P)
    (fun s hs' => callStopIn_insert_of_true r f X k instr P s hs') fuel B l e
  have hsuccs : (fun b => ((insertInstr f X k instr).block b).succs) =
      (fun b => (f.block b).succs) := funext (insertInstr_succs f X k instr)
  refine (callStopInSuccs_true_iff r _ B P).mpr ⟨fuel, l', ?_, sub.nodup nd, ?_⟩
  · rw [entered_eq_enteredBy, hsuccs]
    exact e'
  · intro x hx hterm
    have hterm' : Terminal f x := by
      unfold Terminal at hterm ⊢
      rw [← insertInstr_succs f X k instr x]
      exact hterm
    have hfx := hT x (sub.subset hx) hterm'
    rcases enteredBy_mem_rel _ _ fuel B l' e' x hx with rfl | hrel
    · rw [hroot]; exact hfx
    · have hne : x ≠ X := by
        rintro rfl
        rw [callStopIn_insert_self r f x k instr P cc hlt hc hs] at hrel
        simp at hrel
      rw [insertInstr_block_ne f X k instr x hne]
      exact hfx

/-- C18. Adding a release never creates a diagnostic for that iterator: when `unstop`
answers `false` for a producing call `P` of the iterator pointer type at `B.Instrs[i]`,
it still answers `false` for `P` after one more release of `P` has been inserted at any
position `k` of any block `X`; the index of `P` becomes `i + 1` when the insertion is in
its own block at a position `k <= i`. -/
theorem adding_release_keeps_acceptance (r : runner) (f : Function) (B i : Nat) (id : Value)
    (typ : Typ) (c : CallCommon) (pos : Pos) (X k : Nat) (instr : Instruction)
    (cc : CallCommon)
    (hP : (f.block B).instrs.get? i = some (.call id typ c pos))
    (hT : r.iterTyp = some typ)
    (hc : instr.common? = some cc) (hs : isStopCall r cc id = true)
    (hun : unstop r f B i = false) :
    unstop r (insertInstr f X k instr) B (if X = B ∧ k ≤ i then i + 1 else i) = false := by
  have hil : i < (f.block B).instrs.length := by
    rw [List.get?_eq_some] at hP
    exact hP.1
  have hBlt : B < f.blocks.length := by
    by_contra hge
    rw [block_of_ge f B (not_lt.mp hge)] at hil
    simp at hil
  rw [unstop_producer r f B i id typ c pos hP hT] at hun
  have hcases : callStopIn r ((f.block B).instrs.drop i) id = true ∨
      (callStopInSuccs r f B id []).1 = true := by
    cases h1 : callStopIn r ((f.block B).instrs.drop i) id
    · right
      rw [h1] at hun
      simpa using hun
    · exact Or.inl rfl
  by_cases hXB : X = B
  · subst hXB
    by_cases hki : k ≤ i
    · rw [if_pos ⟨rfl, hki⟩]
      have hP' : ((insertInstr f X k instr).block X).instrs.get? (i + 1)
          = some (.call id typ c pos) := by
        rw [insertInstr_block_eq f X k instr hBlt]
        simp only
        rw [get?_insert_ge _ k i instr hki (by omega)]
        exact hP
      rw [unstop_producer r _ X (i + 1) id typ c pos hP' hT]
      have htail : ((insertInstr f X k instr).block X).instrs.drop (i + 1)
          = (f.block X).instrs.drop i := by
        rw [insertInstr_block_eq f X k instr hBlt]
        simp only
        exact drop_insert_ge _ k i instr hki (by omega)
      rw [htail]
      rcases hcases with h1 | h2
      · rw [h1]; rfl
      · have hroot : isReturnIter ((insertInstr f X k instr).block X).instrs id =
            isReturnIter (f.block X).instrs id := by
          rw [insertInstr_block_eq f X k instr hBlt]
          simp only
          exact isReturnIter_insert _ k instr id (by omega)
        rw [callStopInSuccs_insert_true r f X k instr id cc X hBlt hc hs hroot h2]
        simp
    · rw [if_neg (fun h => hki h.2)]
      have hik : i < k := not_le.mp hki
      have hP' : ((insertInstr f X k instr).block X).instrs.get? i
          = some (.call id typ c pos) := by
        rw [insertInstr_block_eq f X k instr hBlt]
        simp only
        rw [get?_insert_lt _ k i instr hik hil]
        exact hP
      rw [unstop_producer r _ X i id typ c pos hP' hT]
      have htail : callStopIn r (((insertInstr f X k instr).block X).instrs.drop i) id
          = true := by
        rw [callStopIn_iff, insertInstr_block_eq f X k instr hBlt]
        exact ⟨instr, mem_drop_insert_lt _ k i instr hik hil, cc, hc, hs⟩
      rw [htail]
      rfl
  · rw [if_neg (fun h => hXB h.1)]
    have hblock : (insertInstr f X k instr).block B = f.block B :=
      insertInstr_block_ne f X k instr B (Ne.symm hXB)
    have hP' : ((insertInstr f X k instr).block B).instrs.get? i
        = some (.call id typ c pos) := by
      rw [hblock]; exact hP
    rw [unstop_producer r _ B i id typ c pos hP' hT, hblock]
    rcases hcases with h1 | h2
    · rw [h1]; rfl
    · by_cases hXlt : X < f.blocks.length
      · rw [callStopInSuccs_insert_true r f X k instr id cc B hXlt hc hs
          (by rw [hblock]) h2]
        simp
      · rw [insertInstr_of_ge f X k instr (not_lt.mp hXlt), h2]
        simp

/-- Instance of C18 on the if/else whose two branches return the iterator: a release
inserted after the return of the first branch, and a release inserted before the producer
in its own block, both leave the producer accepted. -/
theorem adding_release_keeps_acceptance_witness :
    (exBranchReturn.block 0).instrs.get? 0 = some (.call 1 exIterTyp ⟨some exQuery, []⟩ 10) ∧
    exRunner.iterTyp = some exIterTyp ∧
    (exRelease 9 1 20).common? = some ⟨some exStop, [1]⟩ ∧
    isStopCall exRunner ⟨some exStop, [1]⟩ 1 = true ∧
    unstop exRunner exBranchReturn 0 0 = false ∧
    unstop exRunner (insertInstr exBranchReturn 1 1 (exRelease 9 1 20)) 0
      (if 1 = 0 ∧ 1 ≤ 0 then 0 + 1 else 0) = false ∧
    unstop exRunner (insertInstr exBranchReturn 0 0 (exRelease 9 1 20)) 0
      (if 0 = 0 ∧ 0 ≤ 0 then 0 + 1 else 0) = false :=
  ⟨by decide, by decide, by decide, by decide, by decide,
    adding_release_keeps_acceptance exRunner exBranchReturn 0 0 1 exIterTyp
      ⟨some exQuery, []⟩ 10 1 1 (exRelease 9 1 20) ⟨some exStop, [1]⟩
      (by decide) (by decide) (by decide) (by decide) (by decide),
    adding_release_keeps_acceptance exRunner exBranchReturn 0 0 1 exIterTyp
      ⟨some exQuery, []⟩ 10 0 0 (exRelease 9 1 20) ⟨some exStop, [1]⟩
      (by decide) (by decide) (by decide) (by decide) (by decide)⟩

theorem allSuccs_of_enteredList (Rf : Nat → Option Bool) (ent : Nat → Option (List Nat))
    (rel : Nat → Bool) (T : Nat → Prop)
    (h : ∀ s l, ent s = some l → ∃ v, Rf s = some v ∧ (v = true ↔ ∀ x ∈ l, T x)) :
    ∀ ss ls, enteredList ent rel ss = some ls →
      ∃ v, allSuccs (fun s => if rel s then some true else Rf s) ss = some v ∧
        (v = true ↔ ∀ x ∈ ls, T x) := by
  intro ss
  induction ss with
  | nil =>
    intro ls hls
    simp only [enteredList, Option.some.injEq] at hls
    subst hls
    exact ⟨true, rfl, by simp⟩
  | cons s ss ih =>
    intro ls hls
    rcases enteredList_cons_some ent rel s ss ls hls with ⟨hr, h1⟩ | ⟨hr, l, ls0, h1, h2, h3⟩
    · obtain ⟨v, hv, hiff⟩ := ih ls h1
      refine ⟨v, ?_, hiff⟩
      rw [allSuccs]
      simp only [hr, if_true, hv, Bool.true_and]
    · obtain ⟨v0, hv0, hiff0⟩ := ih ls0 h2
      obtain ⟨v1, hv1, hiff1⟩ := h s l h1
      subst h3
      refine ⟨v1 && v0, ?_, ?_⟩
      · rw [allSuccs]
        simp only [hr, Bool.false_eq_true, if_false, hv1, hv0]
      · rw [Bool.and_eq_true, hiff0, hiff1]
        constructor
        · rintro ⟨ha, hb⟩ x hx
          rcases List.mem_append.mp hx with hx1 | hx2
          · exact ha x hx1
          · exact hb x hx2
        · intro hall
          exact ⟨fun x hx => hall x (List.mem_append_left _ hx),
            fun x hx => hall x (List.mem_append_right _ hx)⟩

/-- Where the unfolding of the entered blocks exists, `R` is defined and holds exactly
when every terminal block among them returns the value. -/
theorem R_of_entered (r : runner) (f : Function) (P : Value) :
    ∀ (fuel b : Nat) (l : List Nat), entered r f P fuel b = some l →
      ∃ v, R r f P fuel b = some v ∧
        (v = true ↔ ∀ x ∈ l, Terminal f x → isReturnIter (f.block x).instrs P = true) := by
  intro fuel
  induction fuel with
  | zero => intro b l h; simp [entered] at h
  | succ fuel ih =>
    intro b l h
    rw [entered_eq_enteredBy] at h
    obtain ⟨ls, hls, rfl⟩ := enteredBy_succ_some _ _ fuel b l h
    have hent : enteredBy (fun b => (f.block b).succs)
        (fun s => callStopIn r (f.block s).instrs P) fuel = entered r f P fuel :=
      (funext (entered_eq_enteredBy r f P fuel)).symm
    rw [hent] at hls
    rw [R]
    by_cases ht : (f.block b).succs.isEmpty = true
    · have hnil : (f.block b).succs = [] := by simpa using ht
      simp only [ht, if_true]
      rw [hnil] at hls
      simp only [enteredList, Option.some.injEq] at hls
      subst hls
      refine ⟨_, rfl, ?_⟩
      constructor
      · intro hv x hx _
        rw [List.mem_singleton] at hx
        subst hx; exact hv
      · intro hall
        exact hall b (List.mem_singleton_self b) hnil
    · simp only [ht, Bool.false_eq_true, if_false]
      obtain ⟨v, hv, hiff⟩ := allSuccs_of_enteredList (R r f P fuel) (entered r f P fuel)
        (fun s => callStopIn r (f.block s).instrs P)
        (fun x => Terminal f x → isReturnIter (f.block x).instrs P = true) ih _ _ hls
      refine ⟨v, hv, ?_⟩
      rw [hiff]
      constructor
      · intro hall x hx
        rcases List.mem_cons.mp hx with rfl | hx1
        · intro hterm
          unfold Terminal at hterm
          rw [hterm] at ht
          simp at ht
        · exact hall x hx1
      · intro hall x hx
        exact hall x (List.mem_cons_of_mem _ hx)

theorem allSuccs_congr_some (chk chk' : Nat → Option Bool)
    (h : ∀ s v, chk s = some v → chk' s = some v) :
    ∀ ss v, allSuccs chk ss = some v → allSuccs chk' ss = some v := by
  intro ss
  induction ss with
  | nil => intro v hv; exact hv
  | cons s ss ih =>
    intro v hv
    rw [allSuccs] at hv ⊢
    cases h1 : chk s with
    | none => rw [h1] at hv; simp at hv
    | some x =>
      cases h2 : allSuccs chk ss with
      | none => rw [h1, h2] at hv; simp at hv
      | some y =>
        rw [h1, h2] at hv
        rw [h s x h1, ih y h2]
        exact hv

/-- A value of `R` obtained with some fuel is obtained with any larger fuel. -/
theorem R_mono (r : runner) (f : Function) (P : Value) :
    ∀ (fuel fuel' b : Nat) (v : Bool), fuel ≤ fuel' →
      R r f P fuel b = some v → R r f P fuel' b = some v := by
  intro fuel
  induction fuel with
  | zero => intro fuel' b v _ h; simp [R] at h
  | succ fuel ih =>
    intro fuel' b v hle h
    obtain ⟨k, rfl⟩ : ∃ k, fuel' = k + 1 := ⟨fuel' - 1, by omega⟩
    rw [R] at h ⊢
    by_cases ht : (f.block b).succs.isEmpty = true
    · simp only [ht, if_true] at h ⊢
      exact h
    · simp only [ht, Bool.false_eq_true, if_false] at h ⊢
      refine allSuccs_congr_some _ _ ?_ _ _ h
      intro s x hx
      by_cases hr : callStopIn r (f.block s).instrs P = true
      · simp only [hr, if_true] at hx ⊢
        exact hx
      · simp only [hr, Bool.false_eq_true, if_false] at hx ⊢
        exact ih k s x (by omega) hx

/-- C20. Exactness on tree-shaped regions: when each block reachable from `B` is reached
by exactly one path from `B` (the list of reachable blocks, one entry per path, exists
and has no repetition: no join, no cycle), the predicate `R` is defined at `B` and
`callStopInSuccs(B, P, {})` equals `R(B)`. -/
theorem exact_on_trees (r : runner) (f : Function) (B : Nat) (P : Value) (fuel : Nat)
    (l : List Nat) (htree : reached f fuel B = some l) (hnd : l.Nodup) :
    (∃ v, R r f P fuel B = some v) ∧
      ∀ fuel' v, R r f P fuel' B = some v → (callStopInSuccs r f B P []).1 = v := by
  obtain ⟨l', e', sub⟩ := enteredBy_sub (fun b => (f.block b).succs) (fun _ => false)
    (fun s => callStopIn r (f.block s).instrs P) (fun s hs => by simp at hs) fuel B l htree
  have e : entered r f P fuel B = some l' := by rw [entered_eq_enteredBy]; exact e'
  obtain ⟨v0, hv0, hiff⟩ := R_of_entered r f P fuel B l' e
  refine ⟨⟨v0, hv0⟩, ?_⟩
  intro fuel' v hv
  have h1 := R_mono r f P fuel (max fuel fuel') B v0 (le_max_left _ _) hv0
  have h2 := R_mono r f P fuel' (max fuel fuel') B v (le_max_right _ _) hv
  rw [h1] at h2
  have hvv : v = v0 := (Option.some.inj h2).symm
  subst hvv
  rw [Bool.eq_iff_iff, hiff, callStopInSuccs_true_iff]
  constructor
  · rintro ⟨fuel2, l2, e2, _, hT2⟩
    rw [entered_eq_enteredBy] at e2
    have m1 := enteredBy_mono _ _ fuel (max fuel fuel2) B l' (le_max_left _ _) e'
    have m2 := enteredBy_mono _ _ fuel2 (max fuel fuel2) B l2 (le_max_right _ _) e2
    rw [m1] at m2
    have : l' = l2 := Option.some.inj m2
    subst this
    exact hT2
  · intro hT
    exact ⟨fuel, l', e, sub.nodup hnd, hT⟩

/-- Instance of C20 on two trees: the if/else whose branches both return the iterator,
where `R` and the walk answer `true`, and the if/else one branch of which returns
nothing, where both answer `false`. -/
theorem exact_on_trees_witness :
    reached exBranchReturn 2 0 = some [0, 1, 2] ∧ [0, 1, 2].Nodup ∧
    R exRunner exBranchReturn 1 2 0 = some true ∧
    (callStopInSuccs exRunner exBranchReturn 0 1 []).1 = true ∧
    reached exBranchLeak 2 0 = some [0, 1, 2] ∧
    R exRunner exBranchLeak 1 2 0 = some false ∧
    (callStopInSuccs exRunner exBranchLeak 0 1 []).1 = false ∧
    ((∃ v, R exRunner exBranchReturn 1 2 0 = some v) ∧
      ∀ fuel' v, R exRunner exBranchReturn 1 fuel' 0 = some v →
        (callStopInSuccs exRunner exBranchReturn 0 1 []).1 = v) ∧
    ((∃ v, R exRunner exBranchLeak 1 2 0 = some v) ∧
      ∀ fuel' v, R exRunner exBranchLeak 1 fuel' 0 = some v →
        (callStopInSuccs exRunner exBranchLeak 0 1 []).1 = v) :=
  ⟨by decide, by decide, by decide, by decide, by decide, by decide, by decide,
    exact_on_trees exRunner exBranchReturn 0 1 2 [0, 1, 2] (by decide) (by decide),
    exact_on_trees exRunner exBranchLeak 0 1 2 [0, 1, 2] (by decide) (by decide)⟩

theorem append_infix_split (a b : Char) :
    ∀ (S l1 l2 : List Char), l1 ++ a :: b :: l2 = S →
      ∃ k, k ≤ S.length ∧ l1 = S.take k ∧ S.drop k = a :: b :: l2 := by
  intro S l1 l2 h
  refine ⟨l1.length, ?_, ?_, ?_⟩
  · rw [← h, List.length_append]; omega
  · rw [← h, List.take_left]
  · rw [← h, List.drop_left]

theorem rowIterator_stop_split (l1 l2 : List Char)
    (h : l1 ++ ')' :: '.' :: l2 = "*RowIterator).Stop".data) :
    l1 = "*RowIterator".data ∧ l2 = "Stop".data := by
  obtain ⟨k, hk, h1, h2⟩ := append_infix_split ')' '.' _ l1 l2 h
  have hk' : k ≤ 18 := hk
  interval_cases k <;> simp_all

/-- The name of a method whose name relative to a package is `(*RowIterator).Stop` is
`Stop`, and its receiver type is written `*RowIterator` relative to that package. -/
theorem relString_method_stop (fn : Callee) (p : String) (t : Typ)
    (hrecv : fn.recv = some t) (h : fn.relString p = "(*RowIterator).Stop") :
    fn.name = "Stop" ∧ relType p t = "*RowIterator" := by
  unfold Callee.relString at h
  rw [hrecv] at h
  simp only at h
  have hd := congrArg String.data h
  simp only [String.data_append] at hd
  have hd' : (relType p t).data ++ ')' :: '.' :: fn.name.data = "*RowIterator).Stop".data := by
    simp only [List.singleton_append, List.append_assoc, List.cons_append, List.nil_append,
      List.cons.injEq, true_and] at hd
    exact hd
  obtain ⟨h1, h2⟩ := rowIterator_stop_split _ _ hd'
  exact ⟨String.ext h2, String.ext h1⟩

/-- A function that is not a method and has a package is named, relative to that
package, by its own name. -/
theorem relString_function (fn : Callee) (p : String) (hrecv : fn.recv = none)
    (hp : fn.pkg = some p) : fn.relString p = fn.name := by
  unfold Callee.relString
  rw [hrecv, hp]
  simp

/-- The answer of `callStopIn`, spelled out: some call-like instruction has a static
callee with a package, whose name relative to that package is `(*RowIterator).Stop`,
whose signature is identical to that of the recorded release method, and whose first
operand is `P`. -/
theorem callStopIn_iff_callee (r : runner) (instrs : List Instruction) (P : Value) :
    callStopIn r instrs P = true ↔
      ∃ instr ∈ instrs, ∃ c fn p m, instr.common? = some c ∧ c.staticCallee = some fn ∧
        fn.pkg = some p ∧ fn.relString p = "(*RowIterator).Stop" ∧
        r.stopMthd = some m ∧ fn.sig = m.sig ∧ c.args.head? = some P := by
  rw [callStopIn_iff]
  unfold HasRelease
  constructor
  · rintro ⟨instr, hmem, c, hc, hs⟩
    unfold isStopCall at hs
    simp only [Bool.and_eq_true, beq_iff_eq] at hs
    obtain ⟨fn, p, m, hfn, hp, hrs, hm, hsig⟩ := (isStopCallee_iff r _).mp hs.1.1
    exact ⟨instr, hmem, c, fn, p, m, hc, hfn, hp, hrs, hm, hsig, hs.2⟩
  · rintro ⟨instr, hmem, c, fn, p, m, hc, hfn, hp, hrs, hm, hsig, harg⟩
    refine ⟨instr, hmem, c, hc, ?_⟩
    unfold isStopCall
    rw [(isStopCallee_iff r _).mpr ⟨fn, p, m, hfn, hp, hrs, hm, hsig⟩, harg]
    cases hargs : c.args with
    | nil => rw [hargs] at harg; simp at harg
    | cons a as => simp

theorem receiverTyped_call (instrs : List Instruction) (P : Value) (typ : Typ)
    (h : receiverTyped instrs P typ = true) (instr : Instruction) (hmem : instr ∈ instrs)
    (c : CallCommon) (hc : instr.common? = some c) : receiverTypedCall c P typ = true := by
  unfold receiverTyped at h
  rw [List.all_eq_true] at h
  have := h instr hmem
  rw [hc] at this
  exact this

/-- On a typed call whose first operand is `P`, a callee named `(*RowIterator).Stop`
relative to its package is a method called `Stop` whose receiver type is the type of
`P`. -/
theorem receiverTypedCall_stop (c : CallCommon) (P : Value) (typ : Typ) (fn : Callee)
    (p : String) (hwt : receiverTypedCall c P typ = true)
    (hfn : c.staticCallee = some fn) (hp : fn.pkg = some p)
    (hrs : fn.relString p = "(*RowIterator).Stop") (harg : c.args.head? = some P) :
    fn.recv = some typ ∧ fn.name = "Stop" := by
  unfold receiverTypedCall at hwt
  rw [hfn] at hwt
  simp only [harg, if_true] at hwt
  cases hrecv : fn.recv with
  | none =>
    rw [hrecv] at hwt
    rw [relString_function fn p hrecv hp] at hrs
    rw [hrs] at hwt
    have hcon : (!"(*RowIterator).Stop".data.contains '(') = false := by decide
    simp only [hcon] at hwt
    exact absurd hwt (by decide)
  | some t =>
    rw [hrecv] at hwt
    simp only [decide_eq_true_eq] at hwt
    subst hwt
    exact ⟨rfl, (relString_method_stop fn p t hrecv hrs).1⟩

/-- C17. The release method is matched by type identity: on typed SSA, where a value `P`
of the iterator pointer type appears as first operand of a static method call only when
that is the receiver type of the callee, `callStopIn(instrs, P)` is `true` only if some
call in `instrs` has a static callee whose receiver type is the pointer to the resolved
iterator named type, whose identifier is `Stop`, and whose signature is identical to
that of the resolved release method, with `P` as first operand; and a call of a method
with another receiver type, such as the method `Stop` of a type named `RowIterator`
declared in a different package, is not accepted as a release of `P`. -/
theorem release_matched_by_type (r : runner) (instrs : List Instruction) (P : Value)
    (N : Typ) (hN : r.iterNamed = some N)
    (hwt : receiverTyped instrs P (.pointer N) = true) :
    (callStopIn r instrs P = true →
      ∃ instr ∈ instrs, ∃ c fn m, instr.common? = some c ∧ c.staticCallee = some fn ∧
        fn.recv = r.iterNamed.map Typ.pointer ∧ fn.name = "Stop" ∧
        r.stopMthd = some m ∧ fn.sig = m.sig ∧ c.args.head? = some P) ∧
    (∀ instr ∈ instrs, ∀ c fn, instr.common? = some c → c.staticCallee = some fn →
      fn.recv ≠ r.iterNamed.map Typ.pointer → isStopCall r c P = false) := by
  constructor
  · intro h
    obtain ⟨instr, hmem, c, fn, p, m, hc, hfn, hp, hrs, hm, hsig, harg⟩ :=
      (callStopIn_iff_callee r instrs P).mp h
    obtain ⟨hrecv, hname⟩ := receiverTypedCall_stop c P (.pointer N) fn p
      (receiverTyped_call instrs P _ hwt instr hmem c hc) hfn hp hrs harg
    exact ⟨instr, hmem, c, fn, m, hc, hfn, by rw [hN]; exact hrecv, hname, hm, hsig, harg⟩
  · intro instr hmem c fn hc hfn hne
    rw [Bool.eq_false_iff]
    intro hs
    have hwc := receiverTyped_call instrs P _ hwt instr hmem c hc
    unfold isStopCall at hs
    simp only [Bool.and_eq_true, beq_iff_eq] at hs
    obtain ⟨fn', p, m, hfn', hp, hrs, _, _⟩ := (isStopCallee_iff r _).mp hs.1.1
    rw [hfn] at hfn'
    have hfn'' : fn = fn' := Option.some.inj hfn'
    subst hfn''
    have := (receiverTypedCall_stop c P (.pointer N) fn p hwc hfn hp hrs hs.2).1
    exact hne (by rw [hN]; exact this)

/-- Instance of C17: in the two-producer function the release found for the first
producer is the method `Stop` of the iterator type; in the function that also stops an
iterator of another package, that call is not a release of the producer, which is
reported. -/
theorem release_matched_by_type_witness :
    exRunner.iterNamed = some exIterNamed ∧
    receiverTyped (exTwo.block 0).instrs 1 (.pointer exIterNamed) = true ∧
    receiverTyped (exOtherTyped.block 0).instrs 1 (.pointer exIterNamed) = true ∧
    exOtherStop.recv ≠ exRunner.iterNamed.map Typ.pointer ∧
    isStopCall exRunner ⟨some exOtherStop, [2]⟩ 1 = false ∧
    unstop exRunner exOtherTyped 0 0 = true ∧
    callStopIn exRunner (exTwo.block 0).instrs 1 = true ∧
    (∃ instr ∈ (exTwo.block 0).instrs, ∃ c fn m, instr.common? = some c ∧
        c.staticCallee = some fn ∧
        fn.recv = exRunner.iterNamed.map Typ.pointer ∧ fn.name = "Stop" ∧
        exRunner.stopMthd = some m ∧ fn.sig = m.sig ∧ c.args.head? = some 1) :=
  ⟨by decide, by decide, by decide, by decide,
    (release_matched_by_type exRunner (exOtherTyped.block 0).instrs 1 exIterNamed
      (by decide) (by decide)).2 (.call 3 (.basic "()") ⟨some exOtherStop, [2]⟩ 12)
      (by decide) ⟨some exOtherStop, [2]⟩ exOtherStop rfl rfl (by decide),
    by decide, by decide,
    (release_matched_by_type exRunner (exTwo.block 0).instrs 1 exIterNamed
      (by decide) (by decide)).1 (by decide)⟩

/-- C10 on the code: the runner of the analyzer is the same for every package, and `run`
never clears the release method it recorded.  After a run on a package whose library has
the method `Stop`, a run on a package whose `RowIterator` is a named type without a
method `Stop` raises no error and reports diagnostics, whereas the same package on a new
runner gets the error `cannot find spanner.RowIterator.Stop`. -/
theorem missing_release_method_on_reused_runner :
    (run newRunner (exPass [exTwoLeaks])).r = exRunner ∧
    lookupFromImports (exPassNoStop [exTwoLeaks]).imports spannerPath "RowIterator"
      = some ⟨"RowIterator", exIterNamed, [⟨"Next", ⟨[], [.basic "error"], false⟩⟩]⟩ ∧
    (∀ m ∈ [(⟨"Next", ⟨[], [.basic "error"], false⟩⟩ : Func)], m.id ≠ "Stop") ∧
    (run newRunner (exPassNoStop [exTwoLeaks])).err
      = some "cannot find spanner.RowIterator.Stop" ∧
    (run exRunner (exPassNoStop [exTwoLeaks])).err = none ∧
    (run exRunner (exPassNoStop [exTwoLeaks])).diags
      = [(10, "iterator must be stop"), (11, "iterator must be stop")] := by
  decide

/-- A run that reaches the scan has recorded the iterator named type and, as the iterator
pointer type against which `unstop` tests a producer, the pointer to it. -/
theorem run_iterTyp_pointer (r0 : runner) (pass : Pass)
    (hlib : lookupFromImports pass.imports spannerPath "RowIterator" ≠ none)
    (herr : (run r0 pass).err = none) :
    ∃ N, (run r0 pass).r.iterNamed = some N ∧ (run r0 pass).r.iterTyp = some (.pointer N) := by
  unfold run at herr ⊢
  cases hl : lookupFromImports pass.imports spannerPath "RowIterator" with
  | none => exact absurd hl hlib
  | some obj =>
    simp only [hl] at herr ⊢
    cases ht : obj.typ with
    | named pkg name =>
      simp only [ht] at herr ⊢
      cases hs : findStop obj.methods r0.stopMthd with
      | none => simp only [hs] at herr; simp at herr
      | some m => exact ⟨.named pkg name, rfl, rfl⟩
    | pointer e => simp only [ht] at herr; simp at herr
    | basic n => simp only [ht] at herr; simp at herr

end Unstopiter
